import Mathlib

/-!
Verification of the gitchart chart-aggregation logic (gitchart.py).

Strings are modelled as lists of characters (`Str`); the Python string
operations used by the script (`strip`, `split`, `int`, `'{0:02d}'.format`,
`re.sub` on the specific pattern, ...) are embedded as executable functions
on `Str`.  Python dictionaries (insertion ordered, as used by the script)
are modelled as association lists with in-place update (`dset`).  Python's
stable `sorted` is modelled by `List.insertionSort`, which is stable.
Fallible Python operations (indexing, `int()` on bad input, `KeyError`)
return `Option`.
-/

/-- Characters of a Python string. -/
abbrev Str := List Char

/-- Decimal digit test, as in the regex character class `[0-9]`. -/
def isDig (c : Char) : Bool := decide ('0' ≤ c ∧ c ≤ '9')

/-- Whitespace test used by Python `str.strip()` / `str.split()` with no
arguments (the script only ever strips ASCII whitespace). -/
def isWS (c : Char) : Bool := c.isWhitespace

/-- Character of a decimal digit value (`'9'` for out-of-range input,
which never occurs in our uses). -/
def digitChar (n : Nat) : Char :=
  if n = 0 then '0' else if n = 1 then '1' else if n = 2 then '2'
  else if n = 3 then '3' else if n = 4 then '4' else if n = 5 then '5'
  else if n = 6 then '6' else if n = 7 then '7' else if n = 8 then '8'
  else '9'

/-- Value of a decimal digit character. -/
def digitVal (c : Char) : Nat := c.toNat - 48

/-- Decimal digits of `n`, most significant first, via a structural fuel
parameter so that it evaluates by `decide`. -/
def natDigitsAux : Nat → Nat → Str
  | 0, _ => []
  | fuel + 1, n =>
    if n < 10 then [digitChar n]
    else natDigitsAux fuel (n / 10) ++ [digitChar (n % 10)]

/-- Decimal representation of a natural number (`str(n)` in Python for
nonnegative `n`). -/
def natToDigits (n : Nat) : Str := natDigitsAux (n + 1) n

/-- Python `'{0:0wd}'.format(n)`: decimal digits of `n` left padded with
zeros to width `w`. -/
def padZero (w n : Nat) : Str :=
  List.replicate (w - (natToDigits n).length) '0' ++ natToDigits n

/-- Value of a string of decimal digits, most significant first. -/
def parseDigits (s : Str) : Nat := s.foldl (fun a c => 10 * a + digitVal c) 0

/-- Python `str.split(sep)` for a one-character separator: all fields,
empty fields kept; the empty string yields `[""]`. -/
def pySplitP (p : Char → Bool) : Str → List Str
  | [] => [[]]
  | c :: r =>
    if p c then [] :: pySplitP p r
    else
      match pySplitP p r with
      | [] => [[c]]
      | s :: ss => (c :: s) :: ss

/-- Python `str.split(sep)` with a single-character separator. -/
def pySplitOnChar (sep : Char) (s : Str) : List Str :=
  pySplitP (fun c => decide (c = sep)) s

/-- Python `str.split()` (no argument): split on whitespace runs, dropping
empty fields. -/
def pySplitWs (s : Str) : List Str :=
  (pySplitP isWS s).filter (fun g => !g.isEmpty)

/-- Python `str.strip()`: drop leading and trailing whitespace. -/
def pyStrip (s : Str) : Str :=
  ((s.dropWhile isWS).reverse.dropWhile isWS).reverse

/-- Python `str.strip(ch)` for a one-character argument. -/
def pyStripChar (ch : Char) (s : Str) : Str :=
  ((s.dropWhile (fun c => decide (c = ch))).reverse.dropWhile
    (fun c => decide (c = ch))).reverse

/-- Python `str.split(sep, 1)` when the separator occurs (the script
unpacks the result into two variables, which raises when the separator is
absent, hence `Option`). -/
def splitFirst (sep : Char) : Str → Option (Str × Str)
  | [] => none
  | c :: r =>
    if c = sep then some ([], r)
    else (splitFirst sep r).map fun p => (c :: p.1, p.2)

/-- Python `int(s)` restricted to the shapes the script feeds it (strings
of decimal digits, possibly whitespace padded); `none` models the
`ValueError` raised on anything else. -/
def pyIntNat (s : Str) : Option Nat :=
  let t := pyStrip s
  if t.isEmpty then none
  else if t.all isDig then some (parseDigits t) else none

/-- Python list slice `l[i:]` (negative indices count from the end). -/
def pySliceFrom (i : Int) (l : List Str) : List Str :=
  if 0 ≤ i then l.drop i.toNat else l.drop (l.length - (-i).toNat)

/-! ### Python dictionaries (insertion ordered) as association lists -/

/-- A Python `{str: int}` dictionary with its insertion order. -/
abbrev Table := List (Str × Nat)

/-- Dictionary lookup, `d[k]` / `d.get(k)`. -/
def dget : Table → Str → Option Nat
  | [], _ => none
  | (k', v) :: t, k => if k' = k then some v else dget t k

/-- Dictionary lookup with default, `d.get(k, dft)`. -/
def dgetD (t : Table) (k : Str) (dft : Nat) : Nat := (dget t k).getD dft

/-- Keys of a dictionary, in insertion order. -/
def dkeys (t : Table) : List Str := t.map Prod.fst

/-- Dictionary assignment `d[k] = v`: update in place when the key is
present, append otherwise. -/
def dset : Table → Str → Nat → Table
  | [], k, v => [(k, v)]
  | (k', v') :: t, k, v =>
    if k' = k then (k', v) :: t else (k', v') :: dset t k v

/-- The idiom `d[k] = d.get(k, 0) + 1`. -/
def dincr (t : Table) (k : Str) : Table := dset t k (dgetD t k 0 + 1)

/-- The idiom `d[k] += 1`, which raises `KeyError` when `k` is absent. -/
def dincrE (t : Table) (k : Str) : Option Table :=
  match dget t k with
  | some v => some (dset t k (v + 1))
  | none => none

/-- The idiom `d[k] = d.get(k, 0)` (insert `0` when absent, keep the
present value otherwise). -/
def dsetd (t : Table) (k : Str) : Table := dset t k (dgetD t k 0)

/-- Dictionary seeded from a key list, `{k: 0 for k in ks}`. -/
def seedTable (ks : List Str) : Table := ks.map fun k => (k, 0)

/-! ### Basic lemmas about the primitives -/

theorem pySplitP_ne_nil (p : Char → Bool) (s : Str) : pySplitP p s ≠ [] := by
  induction s with
  | nil => simp [pySplitP]
  | cons c r ih =>
    rw [pySplitP]
    split
    · simp
    · rcases h : pySplitP p r with _ | ⟨g, gs⟩
      · exact absurd h ih
      · simp [h]

theorem pySplitP_cons_pos {p : Char → Bool} {c : Char} (r : Str) (h : p c = true) :
    pySplitP p (c :: r) = [] :: pySplitP p r := by
  rw [pySplitP, if_pos h]

theorem pySplitP_cons_neg {p : Char → Bool} {c : Char} (r : Str) (h : p c = false) :
    pySplitP p (c :: r) =
      match pySplitP p r with
      | [] => [[c]]
      | s :: ss => (c :: s) :: ss := by
  rw [pySplitP, if_neg (by simp [h])]

/-- Splitting `s ++ sep :: r` where `s` contains no separator yields `s`
followed by the split of `r`. -/
theorem pySplitP_append_sep {p : Char → Bool} {sep : Char} (s r : Str)
    (hs : ∀ c ∈ s, p c = false) (hsep : p sep = true) :
    pySplitP p (s ++ sep :: r) = s :: pySplitP p r := by
  induction s with
  | nil => simpa using pySplitP_cons_pos r hsep
  | cons c s' ih =>
    have hc : p c = false := hs c (by simp)
    have hs' : ∀ x ∈ s', p x = false := fun x hx => hs x (by simp [hx])
    rw [List.cons_append, pySplitP_cons_neg _ hc, ih hs']

/-- Splitting a string with no separator at all yields the one-field list. -/
theorem pySplitP_no_sep {p : Char → Bool} (s : Str) (hs : ∀ c ∈ s, p c = false) :
    pySplitP p s = [s] := by
  induction s with
  | nil => rfl
  | cons c s' ih =>
    have hc : p c = false := hs c (by simp)
    have hs' : ∀ x ∈ s', p x = false := fun x hx => hs x (by simp [hx])
    rw [pySplitP_cons_neg _ hc, ih hs']

/-! ### Decimal digits -/

theorem isDig_digitChar (n : Nat) : isDig (digitChar n) = true := by
  unfold digitChar
  split_ifs <;> decide

theorem digitVal_digitChar {n : Nat} (h : n < 10) : digitVal (digitChar n) = n := by
  unfold digitChar
  split_ifs with h0 h1 h2 h3 h4 h5 h6 h7 h8
  · subst h0; decide
  · subst h1; decide
  · subst h2; decide
  · subst h3; decide
  · subst h4; decide
  · subst h5; decide
  · subst h6; decide
  · subst h7; decide
  · subst h8; decide
  · have : n = 9 := by omega
    subst this; decide

theorem natDigitsAux_congr :
    ∀ f₁ : Nat, ∀ n : Nat, n < f₁ → ∀ f₂ : Nat, n < f₂ →
      natDigitsAux f₁ n = natDigitsAux f₂ n := by
  intro f₁
  induction f₁ with
  | zero => intro n h; omega
  | succ g ih =>
    intro n hn f₂ hf₂
    rcases f₂ with _ | h₂
    · omega
    rw [natDigitsAux, natDigitsAux]
    split
    · rfl
    · rename_i hn10
      have h10 : 10 ≤ n := by omega
      have hd : n / 10 < n := Nat.div_lt_self (by omega) (by omega)
      rw [ih (n / 10) (by omega) h₂ (by omega)]

theorem natToDigits_eq (n : Nat) :
    natToDigits n =
      if n < 10 then [digitChar n]
      else natToDigits (n / 10) ++ [digitChar (n % 10)] := by
  rw [natToDigits, natDigitsAux]
  split
  · rfl
  · rename_i h
    have hd : n / 10 < n := Nat.div_lt_self (by omega) (by omega)
    rw [natDigitsAux_congr n (n / 10) (by omega) (n / 10 + 1) (by omega)]
    rfl

theorem parseDigits_append (s t : Str) :
    parseDigits (s ++ t) = t.foldl (fun a c => 10 * a + digitVal c) (parseDigits s) := by
  unfold parseDigits
  rw [List.foldl_append]

theorem parseDigits_natToDigits (n : Nat) : parseDigits (natToDigits n) = n := by
  induction n using Nat.strong_induction_on with
  | _ n ih =>
    rw [natToDigits_eq]
    split
    · rename_i h
      simp [parseDigits, digitVal_digitChar h]
    · rename_i h
      have hd : n / 10 < n := Nat.div_lt_self (by omega) (by omega)
      rw [parseDigits_append, ih (n / 10) hd]
      simp [digitVal_digitChar (Nat.mod_lt n (by omega))]
      omega

theorem natToDigits_all_dig (n : Nat) : ∀ c ∈ natToDigits n, isDig c = true := by
  induction n using Nat.strong_induction_on with
  | _ n ih =>
    rw [natToDigits_eq]
    split
    · intro c hc
      simp at hc
      subst hc
      exact isDig_digitChar n
    · rename_i h
      intro c hc
      have hd : n / 10 < n := Nat.div_lt_self (by omega) (by omega)
      rcases List.mem_append.1 hc with h1 | h1
      · exact ih (n / 10) hd c h1
      · simp at h1
        subst h1
        exact isDig_digitChar (n % 10)

theorem natToDigits_ne_nil (n : Nat) : natToDigits n ≠ [] := by
  rw [natToDigits_eq]
  split
  · simp
  · simp

theorem natToDigits_length_le {n k : Nat} (hk : 1 ≤ k) (hn : n < 10 ^ k) :
    (natToDigits n).length ≤ k := by
  induction n using Nat.strong_induction_on generalizing k with
  | _ n ih =>
    rw [natToDigits_eq]
    split
    · simpa using hk
    · rename_i h
      have hd : n / 10 < n := Nat.div_lt_self (by omega) (by omega)
      have hk2 : 2 ≤ k := by
        by_contra hcon
        have : k = 1 := by omega
        subst this
        simp at hn
        omega
      have hdiv : n / 10 < 10 ^ (k - 1) := by
        rw [Nat.div_lt_iff_lt_mul (by omega)]
        have : 10 ^ (k - 1) * 10 = 10 ^ k := by
          rw [← Nat.pow_succ]
          congr 1
          omega
        omega
      have := ih (n / 10) hd (k := k - 1) (by omega) hdiv
      simp only [List.length_append, List.length_cons, List.length_nil]
      omega

theorem padZero_length {w n : Nat} (h : (natToDigits n).length ≤ w) :
    (padZero w n).length = w := by
  unfold padZero
  simp only [List.length_append, List.length_replicate]
  omega

theorem padZero_all_dig (w n : Nat) : ∀ c ∈ padZero w n, isDig c = true := by
  intro c hc
  rcases List.mem_append.1 hc with h | h
  · have := List.eq_of_mem_replicate h
    subst this
    decide
  · exact natToDigits_all_dig n c h

theorem parseDigits_replicate_zero (k : Nat) (s : Str) :
    parseDigits (List.replicate k '0' ++ s) = parseDigits s := by
  induction k with
  | zero => simp
  | succ m ih =>
    rw [List.replicate_succ, List.cons_append]
    unfold parseDigits at *
    simp only [List.foldl_cons]
    have : 10 * 0 + digitVal '0' = 0 := by decide
    rw [this]
    exact ih

theorem parseDigits_padZero (w n : Nat) : parseDigits (padZero w n) = n := by
  unfold padZero
  rw [parseDigits_replicate_zero, parseDigits_natToDigits]

theorem dropWhile_eq_self_of_head {p : Char → Bool} (s : Str)
    (h : ∀ c ∈ s, p c = false) : s.dropWhile p = s := by
  cases s with
  | nil => rfl
  | cons c r =>
    rw [List.dropWhile_cons, if_neg]
    simp [h c (by simp)]

theorem isWS_of_isDig {c : Char} (h : isDig c = true) : isWS c = false := by
  by_contra hcon
  have hws : isWS c = true := by
    cases hx : isWS c
    · exact absurd hx hcon
    · rfl
  unfold isWS Char.isWhitespace at hws
  simp only [Bool.or_eq_true, decide_eq_true_eq] at hws
  rcases hws with ((h1 | h1) | h1) | h1 <;>
    (subst h1; exact absurd h (by decide))

theorem pyStrip_of_all_dig (s : Str) (h : ∀ c ∈ s, isDig c = true) :
    pyStrip s = s := by
  have hnw : ∀ c ∈ s, isWS c = false := fun c hc => isWS_of_isDig (h c hc)
  unfold pyStrip
  rw [dropWhile_eq_self_of_head s hnw,
      dropWhile_eq_self_of_head s.reverse (by intro c hc; exact hnw c (List.mem_reverse.1 hc)),
      List.reverse_reverse]

theorem pyIntNat_padZero (w n : Nat) : pyIntNat (padZero w n) = some n := by
  unfold pyIntNat
  rw [pyStrip_of_all_dig _ (padZero_all_dig w n)]
  have hne : padZero w n ≠ [] := by
    unfold padZero
    intro h
    rcases List.append_eq_nil.1 h with ⟨-, h2⟩
    exact natToDigits_ne_nil n h2
  rw [if_neg (by simpa using hne), if_pos (by
    rw [List.all_eq_true]
    exact padZero_all_dig w n)]
  rw [parseDigits_padZero]

/-! ### Dictionary lemmas -/

theorem dget_dset_self (t : Table) (k : Str) (v : Nat) :
    dget (dset t k v) k = some v := by
  induction t with
  | nil => simp [dset, dget]
  | cons kv t ih =>
    obtain ⟨k', v'⟩ := kv
    rw [dset]
    split
    · rename_i h
      rw [dget, if_pos h]
    · rename_i h
      rw [dget, if_neg h]
      exact ih

theorem dkeys_cons (k : Str) (v : Nat) (t : Table) :
    dkeys ((k, v) :: t) = k :: dkeys t := rfl

theorem dget_dset_ne (t : Table) {k k' : Str} (v : Nat) (h : k' ≠ k) :
    dget (dset t k v) k' = dget t k' := by
  induction t with
  | nil =>
    simp only [dset, dget]
    rw [if_neg (fun he => h he.symm)]
  | cons kv t ih =>
    obtain ⟨k₀, v₀⟩ := kv
    rw [dset]
    split
    · rename_i h0
      rw [dget, dget, if_neg, if_neg]
      · intro he; exact h (he ▸ h0)
      · intro he; exact h (he ▸ h0)
    · rename_i h0
      rw [dget, dget]
      split
      · rfl
      · exact ih

theorem mem_dkeys_iff_dget_isSome (t : Table) (k : Str) :
    k ∈ dkeys t ↔ (dget t k).isSome := by
  induction t with
  | nil => simp [dkeys, dget]
  | cons kv t ih =>
    obtain ⟨k₀, v₀⟩ := kv
    rw [dkeys, List.map_cons, List.mem_cons, dget]
    constructor
    · rintro (h | h)
      · rw [if_pos h.symm]
        rfl
      · split
        · rfl
        · exact (ih.1 h)
    · intro h
      split at h
      · rename_i he
        exact Or.inl he.symm
      · exact Or.inr (ih.2 h)

theorem dkeys_dset_mem (t : Table) {k : Str} (v : Nat) (h : k ∈ dkeys t) :
    dkeys (dset t k v) = dkeys t := by
  induction t with
  | nil => simp [dkeys] at h
  | cons kv t ih =>
    obtain ⟨k₀, v₀⟩ := kv
    rw [dset]
    split
    · simp [dkeys]
    · rename_i h0
      rw [dkeys, List.map_cons, dkeys, List.map_cons]
      congr 1
      apply ih
      rw [dkeys, List.map_cons, List.mem_cons] at h
      rcases h with h | h
      · exact absurd h.symm h0
      · exact h

theorem dkeys_dset_not_mem (t : Table) {k : Str} (v : Nat) (h : k ∉ dkeys t) :
    dkeys (dset t k v) = dkeys t ++ [k] := by
  induction t with
  | nil => simp [dkeys, dset]
  | cons kv t ih =>
    obtain ⟨k₀, v₀⟩ := kv
    rw [dkeys, List.map_cons, List.mem_cons] at h
    push_neg at h
    rw [dset, if_neg (fun he => h.1 he.symm), dkeys, List.map_cons,
      dkeys, List.map_cons, List.cons_append]
    congr 1
    exact ih h.2

theorem length_dset (t : Table) (k : Str) (v : Nat) :
    (dset t k v).length = if k ∈ dkeys t then t.length else t.length + 1 := by
  induction t with
  | nil => simp [dset, dkeys]
  | cons kv t ih =>
    obtain ⟨k₀, v₀⟩ := kv
    rw [dset]
    split
    · rename_i h
      subst h
      simp [dkeys_cons]
    · rename_i h
      have hiff : (k ∈ dkeys ((k₀, v₀) :: t)) ↔ (k ∈ dkeys t) := by
        rw [dkeys_cons, List.mem_cons]
        constructor
        · rintro (he | hm)
          · exact absurd he.symm h
          · exact hm
        · exact Or.inr
      rw [List.length_cons, List.length_cons, ih]
      by_cases hm : k ∈ dkeys t
      · rw [if_pos hm, if_pos (hiff.2 hm)]
      · rw [if_neg hm, if_neg (fun hx => hm (hiff.1 hx))]

theorem nodup_dkeys_dset (t : Table) (k : Str) (v : Nat)
    (h : (dkeys t).Nodup) : (dkeys (dset t k v)).Nodup := by
  by_cases hm : k ∈ dkeys t
  · rw [dkeys_dset_mem t v hm]
    exact h
  · rw [dkeys_dset_not_mem t v hm]
    rw [List.nodup_append]
    refine ⟨h, List.nodup_singleton k, ?_⟩
    intro a ha hb
    rw [List.mem_singleton] at hb
    subst hb
    exact hm ha

theorem dget_dincr_self (t : Table) (k : Str) :
    dget (dincr t k) k = some (dgetD t k 0 + 1) := dget_dset_self t k _

theorem dget_dincr_ne (t : Table) {k k' : Str} (h : k' ≠ k) :
    dget (dincr t k) k' = dget t k' := dget_dset_ne t _ h

theorem dget_dsetd_preserve (t : Table) {k' : Str} (k : Str) {v : Nat}
    (h : dget t k' = some v) : dget (dsetd t k) k' = some v := by
  by_cases he : k' = k
  · subst he
    rw [dsetd, dget_dset_self, dgetD, h]
    rfl
  · rw [dsetd, dget_dset_ne t _ he, h]

theorem dget_dsetd_self (t : Table) (k : Str) :
    dget (dsetd t k) k = some (dgetD t k 0) := dget_dset_self t k _

theorem dget_seedTable_of_mem {ks : List Str} {k : Str} (h : k ∈ ks) :
    dget (seedTable ks) k = some 0 := by
  induction ks with
  | nil => simp at h
  | cons k₀ ks ih =>
    rw [seedTable, List.map_cons, dget]
    split
    · rfl
    · rename_i hne
      rcases List.mem_cons.1 h with he | hm
      · exact absurd he.symm hne
      · exact ih hm

theorem dkeys_seedTable (ks : List Str) : dkeys (seedTable ks) = ks := by
  unfold dkeys seedTable
  rw [List.map_map]
  exact List.map_id ks

/-- Counting fold: the table after `for x in xs: d[x] = d.get(x, 0) + 1`. -/
theorem dget_foldl_dincr (ks : List Str) (t : Table) (k : Str) :
    dget (ks.foldl dincr t) k =
      if ks.count k = 0 then dget t k
      else some (dgetD t k 0 + ks.count k) := by
  induction ks generalizing t with
  | nil => rw [List.foldl_nil, List.count_nil, if_pos rfl]
  | cons a ks ih =>
    rw [List.foldl_cons, ih]
    by_cases ha : a = k
    · subst ha
      rw [List.count_cons_self]
      have h2 : dgetD (dincr t a) a 0 = dgetD t a 0 + 1 := by
        rw [dgetD, dget_dincr_self t a]
        rfl
      by_cases hz : ks.count a = 0
      · rw [hz, if_pos rfl, if_neg (by omega), dget_dincr_self t a]
      · rw [if_neg hz, if_neg (by omega), h2]
        congr 1
        omega
    · have hka : k ≠ a := fun he => ha he.symm
      rw [List.count_cons_of_ne hka, dget_dincr_ne t hka]
      have : dgetD (dincr t a) k 0 = dgetD t k 0 := by
        rw [dgetD, dgetD, dget_dincr_ne t hka]
      rw [this]

theorem nodup_dkeys_foldl_dincr (ks : List Str) (t : Table)
    (h : (dkeys t).Nodup) : (dkeys (ks.foldl dincr t)).Nodup := by
  induction ks generalizing t with
  | nil => exact h
  | cons a ks ih =>
    rw [List.foldl_cons]
    exact ih _ (nodup_dkeys_dset t a _ h)

/-- Sum of the values of a table. -/
def dsum (t : Table) : Nat := (t.map Prod.snd).sum

theorem dsum_cons (k : Str) (v : Nat) (t : Table) :
    dsum ((k, v) :: t) = v + dsum t := by
  simp [dsum]

theorem dsum_dset_add (t : Table) (k : Str) (v : Nat) :
    dsum (dset t k v) + dgetD t k 0 = dsum t + v := by
  induction t with
  | nil => simp [dset, dsum, dgetD, dget]
  | cons kv t ih =>
    obtain ⟨k₀, v₀⟩ := kv
    rw [dset]
    split
    · rename_i he
      rw [dsum_cons, dsum_cons, dgetD, dget, if_pos he]
      simp only [Option.getD_some]
      omega
    · rename_i he
      rw [dsum_cons, dsum_cons]
      have : dgetD ((k₀, v₀) :: t) k 0 = dgetD t k 0 := by
        rw [dgetD, dgetD, dget, if_neg he]
      rw [this]
      omega

theorem dsum_dincr (t : Table) (k : Str) : dsum (dincr t k) = dsum t + 1 := by
  have := dsum_dset_add t k (dgetD t k 0 + 1)
  rw [dincr]
  omega

theorem dsum_foldl_dincr (ks : List Str) (t : Table) :
    dsum (ks.foldl dincr t) = dsum t + ks.length := by
  induction ks generalizing t with
  | nil => simp
  | cons a ks ih =>
    rw [List.foldl_cons, ih, dsum_dincr, List.length_cons]
    omega

/-- With distinct keys, reading every key back in order recovers the
values. -/
theorem map_dgetD_dkeys (t : Table) (h : (dkeys t).Nodup) :
    (dkeys t).map (fun k => dgetD t k 0) = t.map Prod.snd := by
  induction t with
  | nil => rfl
  | cons kv t ih =>
    obtain ⟨k₀, v₀⟩ := kv
    rw [dkeys, List.map_cons, List.map_cons, List.map_cons]
    rw [dkeys, List.map_cons] at h
    have h0 : k₀ ∉ dkeys t := by
      have := List.nodup_cons.1 h
      exact this.1
    congr 1
    · rw [dgetD, dget, if_pos rfl]
      rfl
    · rw [← ih (List.nodup_cons.1 h).2]
      apply List.map_congr_left
      intro k hk
      rw [dgetD, dgetD, dget, if_neg]
      intro he
      exact h0 (he ▸ hk)

/-! ### Folded minima and maxima -/

theorem foldl_min_le_init (xs : List Nat) (i : Nat) : xs.foldl min i ≤ i := by
  induction xs generalizing i with
  | nil => simp
  | cons x xs ih =>
    rw [List.foldl_cons]
    exact le_trans (ih (min i x)) (min_le_left i x)

theorem foldl_min_le_mem (xs : List Nat) (i : Nat) :
    ∀ x ∈ xs, xs.foldl min i ≤ x := by
  induction xs generalizing i with
  | nil => simp
  | cons y xs ih =>
    intro x hx
    rw [List.foldl_cons]
    rcases List.mem_cons.1 hx with he | hm
    · subst he
      exact le_trans (foldl_min_le_init xs (min i x)) (min_le_right i x)
    · exact ih (min i y) x hm

theorem foldl_min_mem (xs : List Nat) (i : Nat) :
    xs.foldl min i = i ∨ xs.foldl min i ∈ xs := by
  induction xs generalizing i with
  | nil => simp
  | cons x xs ih =>
    rw [List.foldl_cons]
    rcases Nat.le_total i x with hle | hle
    · rw [min_eq_left hle]
      rcases ih i with h | h
      · exact Or.inl h
      · exact Or.inr (List.mem_cons_of_mem x h)
    · rw [min_eq_right hle]
      rcases ih x with h | h
      · exact Or.inr (by rw [h]; exact List.mem_cons_self x xs)
      · exact Or.inr (List.mem_cons_of_mem x h)

theorem foldl_max_init_le (xs : List Nat) (i : Nat) : i ≤ xs.foldl max i := by
  induction xs generalizing i with
  | nil => simp
  | cons x xs ih =>
    rw [List.foldl_cons]
    exact le_trans (le_max_left i x) (ih (max i x))

theorem foldl_max_mem_le (xs : List Nat) (i : Nat) :
    ∀ x ∈ xs, x ≤ xs.foldl max i := by
  induction xs generalizing i with
  | nil => simp
  | cons y xs ih =>
    intro x hx
    rw [List.foldl_cons]
    rcases List.mem_cons.1 hx with he | hm
    · subst he
      exact le_trans (le_max_right i x) (foldl_max_init_le xs (max i x))
    · exact ih (max i y) x hm

theorem foldl_max_mem (xs : List Nat) (i : Nat) :
    xs.foldl max i = i ∨ xs.foldl max i ∈ xs := by
  induction xs generalizing i with
  | nil => simp
  | cons x xs ih =>
    rw [List.foldl_cons]
    rcases Nat.le_total i x with hle | hle
    · rw [max_eq_right hle]
      rcases ih x with h | h
      · exact Or.inr (by rw [h]; exact List.mem_cons_self x xs)
      · exact Or.inr (List.mem_cons_of_mem x h)
    · rw [max_eq_left hle]
      rcases ih i with h | h
      · exact Or.inl h
      · exact Or.inr (List.mem_cons_of_mem x h)

theorem foldl_max_le_bound (xs : List Nat) (i b : Nat) (hi : i ≤ b)
    (h : ∀ x ∈ xs, x ≤ b) : xs.foldl max i ≤ b := by
  rcases foldl_max_mem xs i with he | hm
  · omega
  · exact h _ hm

/-! ### Seeded counting loops (`d[key] += 1` over pre-seeded keys) -/

/-- The loop `for line in lines: d[keyOf(line)] += 1` over a table `t`:
if every extracted key is present, it succeeds, keeps the key list, and
adds to each key the number of lines mapping to it. -/
theorem foldlM_dincrE (keyOf : Str → Option Str) (lines : List Str) (t : Table)
    (h : ∀ l ∈ lines, ∃ k ∈ dkeys t, keyOf l = some k) :
    ∃ t', (lines.foldlM (fun tt l =>
        match keyOf l with
        | some k => dincrE tt k
        | none => none) t) = some t' ∧
      dkeys t' = dkeys t ∧
      ∀ k, dget t' k = (dget t k).map
        (fun v => v + lines.countP (fun l => decide (keyOf l = some k))) := by
  induction lines generalizing t with
  | nil =>
    refine ⟨t, rfl, rfl, ?_⟩
    intro k
    rcases dget t k with _ | v <;> simp
  | cons l₀ rest ih =>
    obtain ⟨k₀, hk₀mem, hk₀⟩ := h l₀ (by simp)
    have hsome : (dget t k₀).isSome := (mem_dkeys_iff_dget_isSome t k₀).1 hk₀mem
    rcases hv₀ : dget t k₀ with _ | v₀
    · rw [hv₀] at hsome; simp at hsome
    have hstep : dincrE t k₀ = some (dset t k₀ (v₀ + 1)) := by
      rw [dincrE, hv₀]
    have hk₁ : dkeys (dset t k₀ (v₀ + 1)) = dkeys t := dkeys_dset_mem t _ hk₀mem
    have hrest : ∀ l ∈ rest, ∃ k ∈ dkeys (dset t k₀ (v₀ + 1)), keyOf l = some k := by
      intro l hl
      rw [hk₁]
      exact h l (List.mem_cons_of_mem _ hl)
    obtain ⟨t', hfold, hkeys, hvals⟩ := ih (dset t k₀ (v₀ + 1)) hrest
    refine ⟨t', ?_, by rw [hkeys, hk₁], ?_⟩
    · rw [List.foldlM_cons, hk₀]
      simp only [hstep, Option.bind_eq_bind, Option.some_bind]
      exact hfold
    · intro k
      rw [hvals k, List.countP_cons]
      by_cases hkk : k = k₀
      · subst hkk
        rw [dget_dset_self, hv₀]
        have hp : decide (keyOf l₀ = some k) = true := by
          rw [hk₀]
          simp
        rw [hp]
        simp only [Option.map_some', Option.some.injEq, if_true, eq_self_iff_true]
        omega
      · rw [dget_dset_ne t _ hkk]
        have hp : decide (keyOf l₀ = some k) = false := by
          rw [hk₀]
          simp
          intro he
          exact hkk he.symm
        rw [hp]
        simp

/-! ### Output of `_git_command` and outcome of `generate` -/

/-- Processing of a git command's raw output in `_git_command`:
`output.decode(...).strip().split('\n')`. -/
def gitCommandLines (raw : Str) : List Str := pySplitOnChar '\n' (pyStrip raw)

/-- Outcome of one `_chart_*` method: a returned boolean, or a raised
exception. -/
inductive PyResult where
  | ok : Bool → PyResult
  | exc : PyResult
  deriving DecidableEq

/-- The body of `generate`: the chart method's return value, with any
exception caught and turned into `False`. -/
def generateResult : PyResult → Bool
  | .ok b => b
  | .exc => false

/-- The exit status of `main`: `sys.exit(0)` when `generate()` is truthy,
`sys.exit(1)` otherwise. -/
def mainExitCode (r : PyResult) : Nat := if generateResult r then 0 else 1

/-! ### Chart: commits by hour of day -/

/-- The 24 pre-seeded hour keys `'{0:02d}'.format(hour)`. -/
def hourKeysL : List Str := (List.range 24).map (padZero 2)

/-- Key extraction `line.split()[1].split(':')[0]`; `none` models the
`IndexError` on a line without a second field. -/
def hourOf (line : Str) : Option Str :=
  match (pySplitWs line)[1]? with
  | some f => some ((pySplitOnChar ':' f).headD [])
  | none => none

/-- The table built by `_chart_commits_hour_day`; `none` models a raised
exception (`IndexError` or `KeyError`). -/
def chartCommitsHourDay (lines : List Str) : Option Table :=
  lines.foldlM (fun t l =>
    match hourOf l with
    | some k => dincrE t k
    | none => none) (seedTable hourKeysL)

/-- The outcome of `_chart_commits_hour_day` as seen by `generate`. -/
def chartCommitsHourDayRun (lines : List Str) : PyResult :=
  match chartCommitsHourDay lines with
  | some _ => .ok true
  | none => .exc

/-! ### Charts: commits by day of week and by month of year -/

/-- `self.weekdays`: `date(2001, 1, day).strftime('%a')` for days 1..7;
January 1st, 2001 was a Monday. -/
def weekdaysL : List Str :=
  ["Mon".data, "Tue".data, "Wed".data, "Thu".data,
   "Fri".data, "Sat".data, "Sun".data]

/-- `self.months`: `date(2001, month, 1).strftime('%b')` for months
1..12. -/
def monthsL : List Str :=
  ["Jan".data, "Feb".data, "Mar".data, "Apr".data, "May".data, "Jun".data,
   "Jul".data, "Aug".data, "Sep".data, "Oct".data, "Nov".data, "Dec".data]

/-- Key extraction `line.split(',')[0]` for the day-of-week chart. -/
def wdayOf (line : Str) : Str := (pySplitOnChar ',' line).headD []

/-- The table built by `_chart_commits_day_week`. -/
def chartDayWeekTable (lines : List Str) : Option Table :=
  lines.foldlM (fun t l => dincrE t (wdayOf l)) (seedTable weekdaysL)

/-- Python list indexing `l[i]`, with negative indices counting from the
end and `none` modelling `IndexError`. -/
def pyIndex (l : List Str) (i : Int) : Option Str :=
  if 0 ≤ i then l[i.toNat]?
  else if (-i).toNat ≤ l.length then l[l.length - (-i).toNat]? else none

/-- Key extraction `self.months[int(line.split('-')[1]) - 1]` for the
month-of-year chart. -/
def monthKeyOf (line : Str) : Option Str :=
  match (pySplitOnChar '-' line)[1]? with
  | some ms =>
    match pyIntNat ms with
    | some m => pyIndex monthsL ((m : Int) - 1)
    | none => none
  | none => none

/-- The table built by `_chart_commits_month`. -/
def chartMonthTable (lines : List Str) : Option Table :=
  lines.foldlM (fun t l =>
    match monthKeyOf l with
    | some k => dincrE t k
    | none => none) (seedTable monthsL)

/-! ### The sort/limit logic of `_generate_bar_chart` -/

/-- Python `list.index` restricted to present elements (`0` and absence
never matter in our uses, all sorted keys are in the base list). -/
def idxOf : List Str → Str → Nat
  | [], _ => 0
  | a :: l, x => if a = x then 0 else idxOf l x + 1

/-- Comparison by position in a base list, the key function
`self.weekdays.index` / `self.months.index`. -/
def idxLe (base : List Str) (a b : Str) : Prop :=
  idxOf base a ≤ idxOf base b

instance (base : List Str) : DecidableRel (idxLe base) := fun a b =>
  inferInstanceAs (Decidable (idxOf base a ≤ idxOf base b))

/-- Comparison of keys by their value in the table, the key function
`data.get` of `sorted(data, key=data.get)`. -/
def valLe (data : Table) (a b : Str) : Prop := dgetD data a 0 ≤ dgetD data b 0

instance (data : Table) : DecidableRel (valLe data) := fun a b =>
  inferInstanceAs (Decidable (dgetD data a 0 ≤ dgetD data b 0))

/-- The reversed value comparison, `sorted(..., reverse=True)`. -/
def valGe (data : Table) (a b : Str) : Prop := dgetD data b 0 ≤ dgetD data a 0

instance (data : Table) : DecidableRel (valGe data) := fun a b =>
  inferInstanceAs (Decidable (dgetD data b 0 ≤ dgetD data a 0))

/-- Lexicographic string comparison, Python `sorted` on strings. -/
def strLeB : Str → Str → Bool
  | [], _ => true
  | _ :: _, [] => false
  | a :: as, b :: bs => if a = b then strLeB as bs else decide (a < b)

/-- Propositional form of `strLeB`. -/
def strLe (a b : Str) : Prop := strLeB a b = true

instance : DecidableRel strLe := fun a b =>
  inferInstanceAs (Decidable (strLeB a b = true))

/-- `sorted(data)`: the keys in lexicographic order (stable sort,
modelled by insertion sort). -/
def alphaSort (ks : List Str) : List Str := List.insertionSort strLe ks

/-- The stable sort `sorted(data, key=data.get, reverse=self.sort_max < 0)`
of `_generate_bar_chart`. -/
def sortMaxSorted (sortMax : Int) (data : Table) : List Str :=
  if sortMax < 0 then List.insertionSort (valGe data) (dkeys data)
  else List.insertionSort (valLe data) (dkeys data)

/-- Lines 158-164 of `_generate_bar_chart`: stable sort of the keys by
value (reversed for a negative `sort_max`), then `[:keep]` or `[keep:]`
with `keep = -1 * sort_max`. -/
def sortMaxKeys (sortMax : Int) (data : Table) : List Str :=
  if 0 < -1 * sortMax then (sortMaxSorted sortMax data).take (-1 * sortMax).toNat
  else pySliceFrom (-1 * sortMax) (sortMaxSorted sortMax data)

/-- The `x_labels` key list chosen by `_generate_bar_chart` (before the
label-thinning step, which only blanks label text): the `sort_max`
branch, the explicit `sorted_keys` argument (used only when non-empty,
Python truthiness), or `sorted(data)`; then the `max_keys` slice. -/
def barChartKeys (sortMax : Int) (maxKeys : Int) (data : Table)
    (sortedKeys : Option (List Str)) : List Str :=
  let keys :=
    if sortMax ≠ 0 then sortMaxKeys sortMax data
    else
      match sortedKeys with
      | some (k :: ks) => k :: ks
      | _ => alphaSort (dkeys data)
  if maxKeys ≠ 0 then pySliceFrom (-1 * maxKeys) keys else keys

/-- Keys rendered by `_chart_commits_day_week`: the table's keys sorted
by `self.weekdays.index`, passed to `_generate_bar_chart`. -/
def chartDayWeekRendered (sortMax : Int) (lines : List Str) : Option (List Str) :=
  (chartDayWeekTable lines).map fun t =>
    barChartKeys sortMax 0 t
      (some (List.insertionSort (idxLe weekdaysL) (dkeys t)))

/-- Keys rendered by `_chart_commits_month`: the table's keys sorted by
`self.months.index`, passed to `_generate_bar_chart`. -/
def chartMonthRendered (sortMax : Int) (lines : List Str) : Option (List Str) :=
  (chartMonthTable lines).map fun t =>
    barChartKeys sortMax 0 t
      (some (List.insertionSort (idxLe monthsL) (dkeys t)))

/-! ### Claim C4: commits by hour of day -/

/-- C4: for every list of ISO timestamp lines (each carrying a second
field whose hour component is one of the 24 pre-seeded keys, as the
`--date=iso` git output guarantees), `_chart_commits_hour_day` builds a
table whose keys are exactly the 24 hour keys `"00".."23"`, each mapped
to the number of lines whose hour component equals that key. -/
theorem gitchart_C4 (lines : List Str)
    (h : ∀ l ∈ lines, ∃ k ∈ hourKeysL, hourOf l = some k) :
    ∃ t, chartCommitsHourDay lines = some t ∧ dkeys t = hourKeysL ∧
      ∀ k ∈ hourKeysL, dget t k =
        some (lines.countP (fun l => decide (hourOf l = some k))) := by
  have hseed : dkeys (seedTable hourKeysL) = hourKeysL := dkeys_seedTable _
  obtain ⟨t, hfold, hkeys, hvals⟩ := foldlM_dincrE hourOf lines (seedTable hourKeysL)
    (by
      intro l hl
      obtain ⟨k, hk, he⟩ := h l hl
      exact ⟨k, hseed ▸ hk, he⟩)
  refine ⟨t, hfold, by rw [hkeys, hseed], ?_⟩
  intro k hk
  rw [hvals k, dget_seedTable_of_mem hk]
  simp only [Option.map_some', Nat.zero_add]

/-- C4 witness: the concrete scenario from the specification, three
timestamps with hours 18, 18 and 09. -/
theorem gitchart_C4_witness :
    ∃ t, chartCommitsHourDay
        ["2013-03-15 18:27:55 +0100".data,
         "2013-03-15 18:40:00 +0100".data,
         "2013-03-15 09:00:00 +0100".data] = some t ∧
      dkeys t = hourKeysL ∧ hourKeysL.length = 24 ∧
      dget t ("18".data) = some 2 ∧
      dget t ("09".data) = some 1 ∧
      ∀ k ∈ hourKeysL, k ≠ "18".data → k ≠ "09".data → dget t k = some 0 := by
  obtain ⟨t, h1, h2, h3⟩ := gitchart_C4
    ["2013-03-15 18:27:55 +0100".data,
     "2013-03-15 18:40:00 +0100".data,
     "2013-03-15 09:00:00 +0100".data] (by decide)
  refine ⟨t, h1, h2, by decide, ?_, ?_, ?_⟩
  · exact (h3 ("18".data) (by decide)).trans (by decide)
  · exact (h3 ("09".data) (by decide)).trans (by decide)
  · intro k hk h18 h09
    refine (h3 k hk).trans ?_
    congr 1
    rw [List.countP_eq_zero]
    intro l hl
    simp only [List.mem_cons, List.not_mem_nil, or_false] at hl
    have e18 : hourOf ("2013-03-15 18:27:55 +0100".data) = some ("18".data) := by decide
    have e18b : hourOf ("2013-03-15 18:40:00 +0100".data) = some ("18".data) := by decide
    have e09 : hourOf ("2013-03-15 09:00:00 +0100".data) = some ("09".data) := by decide
    rcases hl with rfl | rfl | rfl
    · rw [e18]
      simp only [decide_eq_true_eq, Option.some.injEq]
      simpa using fun he => h18 he.symm
    · rw [e18b]
      simp only [decide_eq_true_eq, Option.some.injEq]
      simpa using fun he => h18 he.symm
    · rw [e09]
      simp only [decide_eq_true_eq, Option.some.injEq]
      simpa using fun he => h09 he.symm

/-! ### Claim C6: fixed calendar order for day-of-week and month charts -/

theorem barChartKeys_default (t : Table) (k : Str) (ks : List Str) :
    barChartKeys 0 0 t (some (k :: ks)) = k :: ks := by
  unfold barChartKeys
  simp

theorem chartDayWeekTable_eq (lines : List Str)
    (hw : ∀ l ∈ lines, wdayOf l ∈ weekdaysL) :
    ∃ t, chartDayWeekTable lines = some t ∧ dkeys t = weekdaysL := by
  obtain ⟨t, hfold, hkeys, -⟩ :=
    foldlM_dincrE (fun l => some (wdayOf l)) lines (seedTable weekdaysL)
      (by
        intro l hl
        exact ⟨wdayOf l, by rw [dkeys_seedTable]; exact hw l hl, rfl⟩)
  exact ⟨t, hfold, by rw [hkeys, dkeys_seedTable]⟩

theorem chartMonthTable_eq (lines : List Str)
    (hm : ∀ l ∈ lines, ∃ k ∈ monthsL, monthKeyOf l = some k) :
    ∃ t, chartMonthTable lines = some t ∧ dkeys t = monthsL := by
  obtain ⟨t, hfold, hkeys, -⟩ :=
    foldlM_dincrE monthKeyOf lines (seedTable monthsL)
      (by
        intro l hl
        obtain ⟨k, hk, he⟩ := hm l hl
        exact ⟨k, by rw [dkeys_seedTable]; exact hk, he⟩)
  exact ⟨t, hfold, by rw [hkeys, dkeys_seedTable]⟩

/-- C6, amended: when the sort/limit parameter `sort_max` is `0` (its
default), the keys rendered by the `commits_day_week` chart are exactly
the weekdays in calendar order Mon..Sun and the keys rendered by the
`commits_month` chart are exactly the months in calendar order Jan..Dec;
neither list is in alphabetic order.  (As stated, the claim fails for
non-zero `sort_max`, see the counterexample.) -/
theorem gitchart_C6_amended (wlines mlines : List Str)
    (hw : ∀ l ∈ wlines, wdayOf l ∈ weekdaysL)
    (hm : ∀ l ∈ mlines, ∃ k ∈ monthsL, monthKeyOf l = some k) :
    chartDayWeekRendered 0 wlines = some weekdaysL ∧
    chartMonthRendered 0 mlines = some monthsL ∧
    weekdaysL ≠ alphaSort weekdaysL ∧ monthsL ≠ alphaSort monthsL := by
  obtain ⟨tw, hw1, hw2⟩ := chartDayWeekTable_eq wlines hw
  obtain ⟨tm, hm1, hm2⟩ := chartMonthTable_eq mlines hm
  refine ⟨?_, ?_, by decide, by decide⟩
  · unfold chartDayWeekRendered
    rw [hw1, Option.map_some', hw2,
      List.Sorted.insertionSort_eq (by decide : List.Sorted (idxLe weekdaysL) weekdaysL)]
    have : barChartKeys 0 0 tw (some weekdaysL) = weekdaysL := by
      unfold weekdaysL
      exact barChartKeys_default tw _ _
    rw [this]
  · unfold chartMonthRendered
    rw [hm1, Option.map_some', hm2,
      List.Sorted.insertionSort_eq (by decide : List.Sorted (idxLe monthsL) monthsL)]
    have : barChartKeys 0 0 tm (some monthsL) = monthsL := by
      unfold monthsL
      exact barChartKeys_default tm _ _
    rw [this]

/-- C6 counterexample: with `sort_max = 7` and a single Tuesday commit,
the `commits_day_week` chart renders its keys sorted by commit count
(Tue, the only nonzero count, last), not in calendar order. -/
theorem gitchart_C6_counterexample :
    chartDayWeekRendered 7 ["Tue, 15 Mar 2013 18:27:55 +0100".data] =
      some ["Mon".data, "Wed".data, "Thu".data, "Fri".data, "Sat".data,
            "Sun".data, "Tue".data] ∧
    chartDayWeekRendered 7 ["Tue, 15 Mar 2013 18:27:55 +0100".data] ≠
      some weekdaysL := by
  constructor
  · decide
  · decide

/-- C6 witness: the amended theorem applied to a one-commit log for each
chart. -/
theorem gitchart_C6_witness :
    chartDayWeekRendered 0 ["Fri, 15 Mar 2013 18:27:55 +0100".data] =
      some weekdaysL ∧
    chartMonthRendered 0 ["2013-03-15".data] = some monthsL := by
  obtain ⟨h1, h2, -, -⟩ := gitchart_C6_amended
    ["Fri, 15 Mar 2013 18:27:55 +0100".data] ["2013-03-15".data]
    (by decide) (by decide)
  exact ⟨h1, h2⟩

/-! ### Claim C7: the sort of `_generate_bar_chart` is stable -/

theorem pair_sublist_take {α : Type} {a b : α} {l : List α} {n : Nat}
    (h : List.Sublist [a, b] l) (hnd : l.Nodup) (hb : b ∈ l.take n) :
    List.Sublist [a, b] (l.take n) := by
  induction l generalizing n with
  | nil => simp at hb
  | cons c l' ih =>
    cases n with
    | zero => simp at hb
    | succ m =>
      rw [List.take_succ_cons] at hb ⊢
      have hnd' := List.nodup_cons.1 hnd
      cases h with
      | cons _ h' =>
        have hbl' : b ∈ l' := h'.subset (by simp)
        have hbtake : b ∈ l'.take m := by
          rcases List.mem_cons.1 hb with he | hm
          · subst he
            exact absurd hbl' hnd'.1
          · exact hm
        exact (ih h' hnd'.2 hbtake).cons c
      | cons₂ _ h' =>
        have hbl' : b ∈ l' := h'.subset (by simp)
        have hba : b ≠ a := fun he => hnd'.1 (he ▸ hbl')
        have hbtake : b ∈ l'.take m := by
          rcases List.mem_cons.1 hb with he | hm
          · exact absurd he hba
          · exact hm
        exact (List.singleton_sublist.2 hbtake).cons₂ a

theorem pair_sublist_drop {α : Type} {a b : α} {l : List α} {n : Nat}
    (h : List.Sublist [a, b] l) (hnd : l.Nodup) (ha : a ∈ l.drop n) :
    List.Sublist [a, b] (l.drop n) := by
  induction l generalizing n with
  | nil => simp at ha
  | cons c l' ih =>
    cases n with
    | zero => simpa using h
    | succ m =>
      rw [List.drop_succ_cons] at ha ⊢
      have hnd' := List.nodup_cons.1 hnd
      cases h with
      | cons _ h' => exact ih h' hnd'.2 ha
      | cons₂ _ h' =>
        exact absurd (List.drop_subset m l' ha) hnd'.1

/-- C7: for every bar-chart data table (whose keys, coming from a Python
dict, are distinct), when `sort_max` is non-zero, keys with equal counts
keep their relative insertion order in the sorted/limited key list, for
the ascending sort (`sort_max > 0`) and the reversed sort
(`sort_max < 0`) alike: any equal-count pair `[a, b]` in table order that
survives into the result is still in that order there. -/
theorem gitchart_C7 (sortMax : Int) (data : Table) (a b : Str)
    (hnz : sortMax ≠ 0) (hnd : (dkeys data).Nodup)
    (hab : List.Sublist [a, b] (dkeys data))
    (heq : dgetD data a 0 = dgetD data b 0)
    (ha : a ∈ sortMaxKeys sortMax data)
    (hb : b ∈ sortMaxKeys sortMax data) :
    List.Sublist [a, b] (sortMaxKeys sortMax data) := by
  have hsk : List.Sublist [a, b] (sortMaxSorted sortMax data) := by
    unfold sortMaxSorted
    split
    · exact List.pair_sublist_insertionSort (le_of_eq heq.symm) hab
    · exact List.pair_sublist_insertionSort (le_of_eq heq) hab
  have hnd' : (sortMaxSorted sortMax data).Nodup := by
    unfold sortMaxSorted
    split
    · exact (List.perm_insertionSort _ _).nodup_iff.2 hnd
    · exact (List.perm_insertionSort _ _).nodup_iff.2 hnd
  unfold sortMaxKeys at ha hb ⊢
  by_cases hkeep : (0 : Int) < -1 * sortMax
  · rw [if_pos hkeep] at ha hb ⊢
    exact pair_sublist_take hsk hnd' hb
  · rw [if_neg hkeep] at ha hb ⊢
    unfold pySliceFrom at ha ⊢
    by_cases hnn : (0 : Int) ≤ -1 * sortMax
    · rw [if_pos hnn] at ha ⊢
      exact pair_sublist_drop hsk hnd' ha
    · rw [if_neg hnn] at ha ⊢
      exact pair_sublist_drop hsk hnd' ha

/-- C7 witness: two equal-count keys `a`, `b` survive the reversed
sort-and-limit (`sort_max = -2`) in insertion order. -/
theorem gitchart_C7_witness :
    List.Sublist ["a".data, "b".data]
      (sortMaxKeys (-2) [("a".data, 1), ("b".data, 1), ("c".data, 0)]) :=
  gitchart_C7 (-2) [("a".data, 1), ("b".data, 1), ("c".data, 0)]
    ("a".data) ("b".data) (by decide) (by decide)
    ((List.nil_sublist [("c".data)]).cons₂ _ |>.cons₂ _)
    (by decide) (by decide) (by decide)

/-! ### The pie-chart loops of `_chart_authors` / `_chart_files_type` -/

/-- The shared loop shape of the two pie charts: iterate over the already
ordered `(label, value)` entries with a running `count`; an entry is shown
while `max_diff <= 0 or count <= max_diff`, otherwise it is folded into
`count_others` / `sum_others`.  Returns (shown entries, count_others,
sum_others). -/
def pieGo (maxDiff : Int) : Nat → List (Str × Nat) → List (Str × Nat) × Nat × Nat
  | _, [] => ([], 0, 0)
  | count, it :: rest =>
    let r := pieGo maxDiff (count + 1) rest
    if maxDiff ≤ 0 ∨ ((count + 1 : Nat) : Int) ≤ maxDiff
    then (it :: r.1, r.2.1, r.2.2)
    else (r.1, r.2.1 + 1, r.2.2 + it.2)

/-- The label `'{0} others ({1})'.format(count_others, sum_others)`. -/
def othersLabel (co so : Nat) : Str :=
  natToDigits co ++ " others (".data ++ natToDigits so ++ [')']

/-- All entries added to the pie chart: the shown entries in order,
followed by the `others` entry when `count_others` is non-zero. -/
def pieEntries (maxDiff : Int) (items : List (Str × Nat)) : List (Str × Nat) :=
  let r := pieGo maxDiff 0 items
  r.1 ++ (if r.2.1 ≠ 0 then [(othersLabel r.2.1 r.2.2, r.2.2)] else [])

/-- Parsing of one `git shortlog -sn` line in `_chart_authors`:
`(number, name) = author.strip(' ').split('\t', 1)`, then `int(number)`;
the result keeps (name, number string, numeric value). -/
def parseAuthorLine (l : Str) : Option (Str × Str × Nat) :=
  match splitFirst '\t' (pyStripChar ' ' l) with
  | some (num, name) =>
    match pyIntNat num with
    | some v => some (name, num, v)
    | none => none
  | none => none

/-- The pie entry `(name + ' ({0})'.format(number), int(number))`. -/
def mkAuthorEntry (it : Str × Str × Nat) : Str × Nat :=
  (it.1 ++ ' ' :: '(' :: it.2.1 ++ [')'], it.2.2)

/-- The pie entries produced by `_chart_authors` from the shortlog lines;
`none` models a raised parsing exception. -/
def chartAuthors (lines : List Str) (maxDiff : Int) : Option (List (Str × Nat)) :=
  (lines.mapM parseAuthorLine).map fun items =>
    pieEntries maxDiff (items.map mkAuthorEntry)

/-- `os.path.splitext(base)[1]` on a path without directory separators:
the suffix from the last dot, unless every character before that dot is
itself a dot. -/
def extOfBase (base : Str) : Str :=
  let afterRev := base.reverse.takeWhile fun c => !decide (c = '.')
  if afterRev.length = base.length then []
  else
    if (base.take (base.length - afterRev.length - 1)).all
        (fun c => decide (c = '.'))
    then []
    else '.' :: afterRev.reverse

/-- `os.path.splitext(line)[1]`: the extension of the part after the last
`'/'`. -/
def splitExtExt (path : Str) : Str :=
  extOfBase ((pySplitOnChar '/' path).getLastD [])

/-- The bucket key of `_chart_files_type`: the extension, or the sentinel
`'(no extension)'`. -/
def extKey (line : Str) : Str :=
  let e := splitExtExt line
  if e.isEmpty then "(no extension)".data else e

/-- The `extensions` dictionary of `_chart_files_type`. -/
def extTable (lines : List Str) : Table :=
  lines.foldl (fun t l => dincr t (extKey l)) []

/-- `sorted(extensions, key=extensions.get, reverse=True)`. -/
def sortedExtKeys (t : Table) : List Str :=
  List.insertionSort (valGe t) (dkeys t)

/-- The pie entry `(ext + ' ({0})'.format(extensions[ext]), extensions[ext])`. -/
def mkExtEntry (t : Table) (k : Str) : Str × Nat :=
  (k ++ ' ' :: '(' :: natToDigits (dgetD t k 0) ++ [')'], dgetD t k 0)

/-- The pie entries produced by `_chart_files_type` from the
`git ls-tree` lines. -/
def chartFilesType (lines : List Str) (maxDiff : Int) : List (Str × Nat) :=
  pieEntries maxDiff
    ((sortedExtKeys (extTable lines)).map (mkExtEntry (extTable lines)))

/-! ### Behaviour of the pie loop -/

/-- With a positive limit `K` and running count `c`, the loop shows the
next `K - c` items and folds the rest into `others`. -/
theorem pieGo_eq_of_pos {K : Nat} (hK : 0 < K) (items : List (Str × Nat)) :
    ∀ c : Nat, pieGo (K : Int) c items =
      (items.take (K - c), items.length - (K - c),
        ((items.drop (K - c)).map Prod.snd).sum) := by
  induction items with
  | nil => intro c; simp [pieGo]
  | cons it rest ih =>
    intro c
    simp only [pieGo, ih (c + 1)]
    by_cases hc : c + 1 ≤ K
    · rw [if_pos (Or.inr (by omega))]
      have h1 : K - c = (K - (c + 1)) + 1 := by omega
      rw [h1, List.take_succ_cons, List.drop_succ_cons, List.length_cons]
      have hmid : rest.length + 1 - (K - (c + 1) + 1) = rest.length - (K - (c + 1)) := by
        omega
      rw [hmid]
    · rw [if_neg (by rintro (h | h) <;> omega)]
      have h1 : K - c = 0 := by omega
      have h2 : K - (c + 1) = 0 := by omega
      rw [h1, h2]
      simp only [List.take_zero, List.drop_zero, Prod.mk.injEq, List.length_cons,
        List.map_cons, List.sum_cons, Nat.sub_zero, true_and, and_true]
      omega

/-- The shown values plus `sum_others` always add up to the total, and
`sum_others` vanishes with `count_others`. -/
theorem pieGo_sum (m : Int) (items : List (Str × Nat)) :
    ∀ c : Nat,
      (((pieGo m c items).1.map Prod.snd).sum + (pieGo m c items).2.2
        = (items.map Prod.snd).sum) ∧
      ((pieGo m c items).2.1 = 0 → (pieGo m c items).2.2 = 0) := by
  induction items with
  | nil => intro c; simp [pieGo]
  | cons it rest ih =>
    intro c
    obtain ⟨ihsum, ihzero⟩ := ih (c + 1)
    simp only [pieGo]
    split
    · simp only [List.map_cons, List.sum_cons]
      exact ⟨by omega, ihzero⟩
    · simp only [List.map_cons, List.sum_cons]
      constructor
      · omega
      · intro h
        omega

/-- Sum of all rendered pie values equals the sum of the input values. -/
theorem pieEntries_sum (m : Int) (items : List (Str × Nat)) :
    ((pieEntries m items).map Prod.snd).sum = (items.map Prod.snd).sum := by
  obtain ⟨hsum, hzero⟩ := pieGo_sum m items 0
  unfold pieEntries
  rw [List.map_append, List.sum_append]
  by_cases hco : (pieGo m 0 items).2.1 = 0
  · rw [if_neg (by simpa using hco)]
    simpa [hzero hco] using hsum
  · rw [if_pos hco]
    simpa using hsum

/-- Truncation: with `0 < K <` number of items, exactly the first `K`
items are shown and one `others` entry carries the excluded sum. -/
theorem pieEntries_trunc {K : Nat} (items : List (Str × Nat)) (h0 : 0 < K)
    (hlt : K < items.length) :
    pieEntries (K : Int) items =
      items.take K ++
        [(othersLabel (items.length - K) (((items.drop K).map Prod.snd).sum),
          ((items.drop K).map Prod.snd).sum)] := by
  unfold pieEntries
  rw [pieGo_eq_of_pos h0 items 0]
  simp only [Nat.sub_zero]
  rw [if_pos (by omega)]

/-! ### Claim C3: files_type values sum to the number of input lines -/

/-- C3: for every list of input file-path lines and every `max_diff`,
the values of all rendered `files_type` entries (individual extensions
plus the `others` entry when present) sum to the number of input lines. -/
theorem gitchart_C3 (flines : List Str) (maxDiff : Int) :
    ((chartFilesType flines maxDiff).map Prod.snd).sum = flines.length := by
  unfold chartFilesType
  rw [pieEntries_sum]
  have hext : extTable flines = (flines.map extKey).foldl dincr [] := by
    rw [extTable, List.foldl_map]
  have hnd : (dkeys (extTable flines)).Nodup := by
    rw [hext]
    exact nodup_dkeys_foldl_dincr _ [] (by simp [dkeys])
  have hperm : List.Perm (sortedExtKeys (extTable flines)) (dkeys (extTable flines)) :=
    List.perm_insertionSort _ _
  rw [List.map_map]
  have hsnd : (Prod.snd ∘ mkExtEntry (extTable flines)) =
      fun k => dgetD (extTable flines) k 0 := rfl
  rw [hsnd, (hperm.map fun k => dgetD (extTable flines) k 0).sum_eq,
    map_dgetD_dkeys _ hnd]
  have hlen : dsum (extTable flines) = flines.length := by
    rw [hext, dsum_foldl_dincr]
    simp [dsum]
  simpa [dsum] using hlen

/-! ### Claim C2: top-K truncation with an `others` entry -/

/-- C2: for the `authors` and `files_type` pie charts, with `N` distinct
keys and a limit `max_diff = K`, `0 < K < N`, the rendered chart holds
exactly the first `K` entries (in shortlog order, resp. count-descending
order) plus one `others` entry whose value is the sum of the `N - K`
excluded counts. -/
theorem gitchart_C2 (alines flines : List Str) (K : Nat)
    (items : List (Str × Str × Nat))
    (hparse : alines.mapM parseAuthorLine = some items)
    (hnodup : (items.map fun it => it.1).Nodup)
    (h0 : 0 < K) (hNa : K < items.length)
    (hNf : K < (extTable flines).length) :
    (∃ es, chartAuthors alines (K : Int) = some es ∧
      es = (items.take K).map mkAuthorEntry ++
        [(othersLabel (items.length - K)
            (((items.drop K).map fun it => it.2.2).sum),
          ((items.drop K).map fun it => it.2.2).sum)] ∧
      es.length = K + 1) ∧
    (chartFilesType flines (K : Int) =
        ((sortedExtKeys (extTable flines)).take K).map
            (mkExtEntry (extTable flines)) ++
          [(othersLabel ((extTable flines).length - K)
              ((((sortedExtKeys (extTable flines)).drop K).map
                  fun k => dgetD (extTable flines) k 0).sum),
            (((sortedExtKeys (extTable flines)).drop K).map
                fun k => dgetD (extTable flines) k 0).sum)] ∧
      (chartFilesType flines (K : Int)).length = K + 1) := by
  constructor
  · have hlen : K < (items.map mkAuthorEntry).length := by
      rwa [List.length_map]
    have htake : (items.map mkAuthorEntry).take K = (items.take K).map mkAuthorEntry :=
      (List.map_take mkAuthorEntry items K).symm
    have hdropsum : (((items.map mkAuthorEntry).drop K).map Prod.snd).sum
        = ((items.drop K).map fun it => it.2.2).sum := by
      rw [← List.map_drop, List.map_map]
      rfl
    have hlenmap : (items.map mkAuthorEntry).length = items.length :=
      List.length_map items mkAuthorEntry
    refine ⟨_, by rw [chartAuthors, hparse, Option.map_some'], ?_, ?_⟩
    · rw [pieEntries_trunc _ h0 hlen, htake, hdropsum, hlenmap]
    · rw [pieEntries_trunc _ h0 hlen]
      rw [List.length_append, List.length_take]
      simp only [List.length_cons, List.length_nil]
      omega
  · have hlen : K <
        ((sortedExtKeys (extTable flines)).map (mkExtEntry (extTable flines))).length := by
      rw [List.length_map, sortedExtKeys, List.length_insertionSort, dkeys,
        List.length_map]
      exact hNf
    have htake : ((sortedExtKeys (extTable flines)).map
          (mkExtEntry (extTable flines))).take K
        = ((sortedExtKeys (extTable flines)).take K).map
            (mkExtEntry (extTable flines)) :=
      (List.map_take _ _ K).symm
    have hdropsum : ((((sortedExtKeys (extTable flines)).map
          (mkExtEntry (extTable flines))).drop K).map Prod.snd).sum
        = (((sortedExtKeys (extTable flines)).drop K).map
            fun k => dgetD (extTable flines) k 0).sum := by
      rw [← List.map_drop, List.map_map]
      rfl
    have hlenmap : ((sortedExtKeys (extTable flines)).map
          (mkExtEntry (extTable flines))).length = (extTable flines).length := by
      rw [List.length_map, sortedExtKeys, List.length_insertionSort, dkeys,
        List.length_map]
    constructor
    · rw [chartFilesType, pieEntries_trunc _ h0 hlen, htake, hdropsum, hlenmap]
    · rw [chartFilesType, pieEntries_trunc _ h0 hlen]
      rw [List.length_append, List.length_take]
      simp only [List.length_cons, List.length_nil]
      omega

/-- C2 witness: three authors / three extension buckets, limit `K = 1`:
one shown entry plus one `others` entry for each chart. -/
theorem gitchart_C2_witness :
    ∃ es, chartAuthors ["  3\tAlice".data, "  2\tBob".data, "  1\tCarol".data]
        ((1 : Nat) : Int) = some es ∧ es.length = 1 + 1 ∧
      (chartFilesType ["a.c".data, "b.c".data, "c.d".data, "e".data]
        ((1 : Nat) : Int)).length = 1 + 1 := by
  obtain ⟨⟨es, h1, h2, h3⟩, h4, h5⟩ := gitchart_C2
    ["  3\tAlice".data, "  2\tBob".data, "  1\tCarol".data]
    ["a.c".data, "b.c".data, "c.d".data, "e".data] 1
    [("Alice".data, "3".data, 3), ("Bob".data, "2".data, 2),
     ("Carol".data, "1".data, 1)]
    (by decide) (by decide) (by decide) (by decide) (by decide)
  exact ⟨es, h1, h3, h5⟩

/-! ### Tag normalization and the commits_version chart -/

/-- `re.sub('([^0-9]+)', ' ', tag)`: each maximal run of non-digits is
replaced by one space; the flag records whether the scan is inside a
run already replaced. -/
def subNDR : Str → Bool → Str
  | [], _ => []
  | c :: r, inRun =>
    if isDig c then c :: subNDR r false
    else if inRun then subNDR r true
    else ' ' :: subNDR r true

/-- The key normalization of `_chart_commits_version`:
`re.sub('([^0-9]+)', ' ', tag).strip().replace(' ', '.')`. -/
def normalizeTag (tag : Str) : Str :=
  (pyStrip (subNDR tag false)).map fun c => if c = ' ' then '.' else c

/-- The git range `oldtag + '..' + tag if oldtag else tag`. -/
def versionRange (oldtag tag : Str) : Str :=
  if oldtag.isEmpty then tag else oldtag ++ '.' :: '.' :: tag

/-- The tag loop of `_chart_commits_version`; `gitLog` abstracts the
output lines of `git log <range> --pretty=oneline`. -/
def versionFold (gitLog : Str → List Str) : List Str → Str → Table → Table
  | [], _, t => t
  | tag :: rest, oldtag, t =>
    versionFold gitLog rest tag
      (dset t (normalizeTag tag) (gitLog (versionRange oldtag tag)).length)

/-- The `commits` table of `_chart_commits_version` built from the tags
on standard input. -/
def versionTable (inData : Str) (gitLog : Str → List Str) : Table :=
  versionFold gitLog (pySplitOnChar '\n' (pyStrip inData)) [] []

/-- The outcome of `_chart_commits_version`: `False` when standard input
is empty (`if not self.in_data`), `True` after rendering otherwise. -/
def chartCommitsVersion (inData : Str) (gitLog : Str → List Str) : PyResult :=
  if inData.isEmpty then .ok false else .ok true

/-! ### Claim C8: exit status semantics -/

/-- C8: the process exits with status 0 iff the selected chart method
returns `True` without raising; an exception is caught and `generate`
returns `False` (exit 1); and `commits_version` with empty standard
input returns `False`, so the process exits with status 1. -/
theorem gitchart_C8 :
    (∀ r : PyResult, mainExitCode r = 0 ↔ r = PyResult.ok true) ∧
    (∀ r : PyResult, mainExitCode r = 1 ↔ r ≠ PyResult.ok true) ∧
    generateResult PyResult.exc = false ∧
    mainExitCode PyResult.exc = 1 ∧
    (∀ gitLog : Str → List Str,
      chartCommitsVersion [] gitLog = PyResult.ok false ∧
      generateResult (chartCommitsVersion [] gitLog) = false ∧
      mainExitCode (chartCommitsVersion [] gitLog) = 1) := by
  refine ⟨?_, ?_, rfl, rfl, ?_⟩
  · intro r
    cases r with
    | ok b => cases b <;> simp [mainExitCode, generateResult]
    | exc => simp [mainExitCode, generateResult]
  · intro r
    cases r with
    | ok b => cases b <;> simp [mainExitCode, generateResult]
    | exc => simp [mainExitCode, generateResult]
  · intro gitLog
    exact ⟨rfl, rfl, rfl⟩

/-! ### Claim C9: `_git_command` never returns an empty list -/

/-- C9: the processed output of every git command has at least one
element; empty raw output yields `['']`, on which the date parsing of
`commits_hour_day` raises, so `generate` returns `False` (exit 1) rather
than producing an all-zero chart. -/
theorem gitchart_C9 :
    (∀ raw : Str, 1 ≤ (gitCommandLines raw).length) ∧
    gitCommandLines [] = [[]] ∧
    chartCommitsHourDay (gitCommandLines []) = none ∧
    generateResult (chartCommitsHourDayRun (gitCommandLines [])) = false ∧
    mainExitCode (chartCommitsHourDayRun (gitCommandLines [])) = 1 := by
  refine ⟨?_, by decide, by decide, by decide, by decide⟩
  intro raw
  have hne := pySplitP_ne_nil (fun c => decide (c = '\n')) (pyStrip raw)
  have : 0 < (gitCommandLines raw).length := by
    rw [gitCommandLines, pySplitOnChar]
    exact List.length_pos.2 hne
  omega

/-! ### Claim C10: colliding version keys overwrite -/

theorem versionFold_length_le (gitLog : Str → List Str) :
    ∀ (tags : List Str) (oldtag : Str) (t : Table),
      (versionFold gitLog tags oldtag t).length ≤ t.length + tags.length := by
  intro tags
  induction tags with
  | nil =>
    intro oldtag t
    simp [versionFold]
  | cons tag rest ih =>
    intro oldtag t
    rw [versionFold, List.length_cons]
    have h1 := ih tag
      (dset t (normalizeTag tag) (gitLog (versionRange oldtag tag)).length)
    have h2 := length_dset t (normalizeTag tag)
      (gitLog (versionRange oldtag tag)).length
    by_cases hm : normalizeTag tag ∈ dkeys t
    · rw [if_pos hm] at h2
      omega
    · rw [if_neg hm] at h2
      omega

/-- C10: assigning to an existing key overwrites its value in place and
adds no entry, so in `_chart_commits_version` a later tag whose
normalization collides with an earlier one overwrites that entry, and
the table can have strictly fewer entries than there are input tags:
witnessed by the two distinct tags `v1.0` and `x1y0`, both normalizing
to `1.0`, whose table holds the one entry `('1.0', <count of the later
interval>)`. -/
theorem gitchart_C10 :
    (∀ (t : Table) (k : Str) (v : Nat),
      dget (dset t k v) k = some v ∧
      (dset t k v).length = if k ∈ dkeys t then t.length else t.length + 1) ∧
    (∀ (inData : Str) (gitLog : Str → List Str),
      (versionTable inData gitLog).length ≤
        (pySplitOnChar '\n' (pyStrip inData)).length) ∧
    (pySplitOnChar '\n' (pyStrip "v1.0\nx1y0".data)).length = 2 ∧
    normalizeTag "v1.0".data = normalizeTag "x1y0".data ∧
    versionTable "v1.0\nx1y0".data
        (fun r => if r = "v1.0".data then [[], [], []] else [[]])
      = [("1.0".data, 1)] := by
  refine ⟨?_, ?_, by decide, by decide, by decide⟩
  · intro t k v
    exact ⟨dget_dset_self t k v, length_dset t k v⟩
  · intro inData gitLog
    have := versionFold_length_le gitLog (pySplitOnChar '\n' (pyStrip inData)) [] []
    simpa [versionTable] using this

/-! ### Claim C5: version key normalization -/

/-- The maximal runs of digit characters of a string, in order.  This is
the specification-side description of the normalization: the normalized
tag is these runs joined with single `'.'` separators (leading and
trailing non-digit runs dropped). -/
def digitGroups : Str → List Str
  | [] => []
  | [c] => if isDig c then [[c]] else []
  | c :: d :: r =>
    if isDig c then
      if isDig d then
        match digitGroups (d :: r) with
        | g :: gs => (c :: g) :: gs
        | [] => [[c]]
      else [c] :: digitGroups (d :: r)
    else digitGroups (d :: r)

/-- Join string groups with a single-character separator. -/
def joinSep (sep : Char) : List Str → Str
  | [] => []
  | [g] => g
  | g :: h :: gs => g ++ sep :: joinSep sep (h :: gs)

theorem joinSep_cons_head (sep : Char) (c : Char) (g : Str) (gs : List Str) :
    joinSep sep ((c :: g) :: gs) = c :: joinSep sep (g :: gs) := by
  cases gs <;> rfl

theorem digitGroups_cons_digit {d : Char} (r : Str) (hd : isDig d = true) :
    digitGroups (d :: r) =
      (d :: r.takeWhile isDig) :: digitGroups (r.dropWhile isDig) := by
  induction r generalizing d with
  | nil => simp [digitGroups, hd]
  | cons e r' ih =>
    by_cases he : isDig e = true
    · rw [digitGroups.eq_3, if_pos hd, if_pos he, ih he]
      rw [List.takeWhile_cons_of_pos he, List.dropWhile_cons_of_pos he]
    · have hef : isDig e = false := by
        cases hx : isDig e
        · rfl
        · exact absurd hx he
      rw [digitGroups.eq_3, if_pos hd, if_neg (by simp [hef])]
      rw [List.takeWhile_cons_of_neg (by simp [hef]),
        List.dropWhile_cons_of_neg (by simp [hef])]

theorem digitGroups_cons_nondigit {c : Char} (r : Str) (hc : isDig c = false) :
    digitGroups (c :: r) = digitGroups r := by
  cases r with
  | nil => simp [digitGroups, hc]
  | cons d r' => rw [digitGroups.eq_3, if_neg (by simp [hc])]

theorem digitGroups_nil_nondigit (s : Str) (h : digitGroups s = []) :
    ∀ x ∈ s, isDig x = false := by
  induction s with
  | nil => simp
  | cons c r ih =>
    by_cases hc : isDig c = true
    · rw [digitGroups_cons_digit r hc] at h
      exact absurd h (by simp)
    · have hcf : isDig c = false := by
        cases hx : isDig c
        · rfl
        · exact absurd hx hc
      rw [digitGroups_cons_nondigit r hcf] at h
      intro x hx
      rcases List.mem_cons.1 hx with he | hm
      · subst he; exact hcf
      · exact ih h x hm

theorem digitGroups_mem_aux :
    ∀ (n : Nat) (s : Str), s.length ≤ n → ∀ g ∈ digitGroups s,
      g ≠ [] ∧ ∀ x ∈ g, isDig x = true := by
  intro n
  induction n with
  | zero =>
    intro s hs
    have : s = [] := List.eq_nil_of_length_eq_zero (by omega)
    subst this
    simp [digitGroups]
  | succ m ih =>
    intro s hs g hg
    cases s with
    | nil => simp [digitGroups] at hg
    | cons c r =>
      by_cases hc : isDig c = true
      · rw [digitGroups_cons_digit r hc] at hg
        rcases List.mem_cons.1 hg with he | hm
        · subst he
          refine ⟨by simp, ?_⟩
          intro x hx
          rcases List.mem_cons.1 hx with hxe | hxm
          · subst hxe; exact hc
          · exact List.mem_takeWhile_imp hxm
        · refine ih (r.dropWhile isDig) ?_ g hm
          have h1 : (r.dropWhile isDig).length ≤ r.length :=
            List.Sublist.length_le (List.dropWhile_sublist isDig)
          simp only [List.length_cons] at hs
          omega
      · have hcf : isDig c = false := by
          cases hx : isDig c
          · rfl
          · exact absurd hx hc
        rw [digitGroups_cons_nondigit r hcf] at hg
        refine ih r ?_ g hg
        simp only [List.length_cons] at hs
        omega

theorem digitGroups_mem (s : Str) (g : Str) (hg : g ∈ digitGroups s) :
    g ≠ [] ∧ ∀ x ∈ g, isDig x = true :=
  digitGroups_mem_aux s.length s le_rfl g hg

/-- Whether the string ends in a non-digit character. -/
def lastNonDigit (s : Str) : Bool :=
  match s.getLast? with
  | some c => !isDig c
  | none => false

/-- The leading space `re.sub` produces when the string starts with a
non-digit run. -/
def leadSp (s : Str) : Str :=
  match s with
  | [] => []
  | c :: _ => if isDig c then [] else [' ']

/-- The trailing space `re.sub` produces when the string ends with a
non-digit run (empty when there are no digits at all: the whole string
is then one leading run). -/
def trailSp (s : Str) : Str :=
  if lastNonDigit s && !(digitGroups s).isEmpty then [' '] else []

theorem lastNonDigit_cons_cons (c d : Char) (r : Str) :
    lastNonDigit (c :: d :: r) = lastNonDigit (d :: r) := by
  unfold lastNonDigit
  rw [List.getLast?_cons_cons]

theorem trailSp_cons_digit {c : Char} (r : Str) (hc : isDig c = true)
    (hne : r ≠ []) (hr : ¬ digitGroups r = []) :
    trailSp (c :: r) = trailSp r := by
  obtain ⟨d, r', rfl⟩ := List.exists_cons_of_ne_nil hne
  unfold trailSp
  rw [lastNonDigit_cons_cons]
  rcases hdg1 : digitGroups (c :: d :: r') with _ | ⟨g1, gs1⟩
  · rw [digitGroups_cons_digit _ hc] at hdg1
    exact absurd hdg1 (by simp)
  rcases hdg2 : digitGroups (d :: r') with _ | ⟨g2, gs2⟩
  · exact absurd hdg2 hr
  simp

theorem trailSp_cons_nondigit {c : Char} (r : Str) (hc : isDig c = false)
    (hne : r ≠ []) : trailSp (c :: r) = trailSp r := by
  obtain ⟨d, r', rfl⟩ := List.exists_cons_of_ne_nil hne
  unfold trailSp
  rw [lastNonDigit_cons_cons, digitGroups_cons_nondigit _ hc]

/-- Decomposition of the regex substitution: scanning from state `false`
yields an optional leading space, the digit groups joined by single
spaces, and an optional trailing space; from state `true` the leading
space is suppressed. -/
theorem subNDR_decomp (s : Str) :
    subNDR s false = leadSp s ++ (joinSep ' ' (digitGroups s) ++ trailSp s) ∧
    subNDR s true = joinSep ' ' (digitGroups s) ++ trailSp s := by
  induction s with
  | nil => exact ⟨rfl, rfl⟩
  | cons c r ih =>
    obtain ⟨ihA, ihB⟩ := ih
    by_cases hc : isDig c = true
    · have hsubf : subNDR (c :: r) false = c :: subNDR r false := by
        simp [subNDR, hc]
      have hsubt : subNDR (c :: r) true = c :: subNDR r false := by
        simp [subNDR, hc]
      have hlead : leadSp (c :: r) = [] := by simp [leadSp, hc]
      have key : c :: subNDR r false
          = joinSep ' ' (digitGroups (c :: r)) ++ trailSp (c :: r) := by
        cases r with
        | nil =>
          simp [subNDR, digitGroups, hc, joinSep, trailSp, lastNonDigit]
        | cons d r' =>
          by_cases hd : isDig d = true
          · have hdg : digitGroups (c :: d :: r')
                = (c :: d :: r'.takeWhile isDig) ::
                    digitGroups (r'.dropWhile isDig) := by
              rw [digitGroups_cons_digit _ hc, List.takeWhile_cons_of_pos hd,
                List.dropWhile_cons_of_pos hd]
            have hdg' : digitGroups (d :: r')
                = (d :: r'.takeWhile isDig) ::
                    digitGroups (r'.dropWhile isDig) :=
              digitGroups_cons_digit _ hd
            have hjoin : joinSep ' ' (digitGroups (c :: d :: r'))
                = c :: joinSep ' ' (digitGroups (d :: r')) := by
              rw [hdg, hdg']
              exact joinSep_cons_head ' ' c _ _
            have htr : trailSp (c :: d :: r') = trailSp (d :: r') :=
              trailSp_cons_digit _ hc (by simp) (by rw [hdg']; simp)
            rw [hjoin, htr, ihA]
            have hld : leadSp (d :: r') = [] := by simp [leadSp, hd]
            rw [hld, List.nil_append, List.cons_append]
          · have hdf : isDig d = false := by
              cases hx : isDig d
              · rfl
              · exact absurd hx hd
            have hdg : digitGroups (c :: d :: r')
                = [c] :: digitGroups (d :: r') := by
              rw [digitGroups_cons_digit _ hc,
                List.takeWhile_cons_of_neg (by simp [hdf]),
                List.dropWhile_cons_of_neg (by simp [hdf])]
            rcases hgs : digitGroups (d :: r') with _ | ⟨g0, gs0⟩
            · have hall := digitGroups_nil_nondigit _ hgs
              have hlast : lastNonDigit (d :: r') = true := by
                rcases hgl : (d :: r').getLast? with _ | x
                · rw [List.getLast?_eq_none_iff] at hgl
                  exact absurd hgl (by simp)
                · have hxmem : x ∈ d :: r' := List.mem_of_getLast?_eq_some hgl
                  unfold lastNonDigit
                  rw [hgl]
                  simp [hall x hxmem]
              have hsub : subNDR (d :: r') false = [' '] := by
                rw [ihA, hgs]
                simp [leadSp, hdf, joinSep, trailSp, hgs]
              rw [hsub, hdg, hgs]
              have htr : trailSp (c :: d :: r') = [' '] := by
                unfold trailSp
                rw [lastNonDigit_cons_cons, hlast, hdg, hgs]
                simp
              rw [htr]
              rfl
            · have htr : trailSp (c :: d :: r') = trailSp (d :: r') :=
                trailSp_cons_digit _ hc (by simp) (by rw [hgs]; simp)
              rw [hdg, hgs, htr, ihA, hgs]
              have hld : leadSp (d :: r') = [' '] := by simp [leadSp, hdf]
              rw [hld]
              rfl
      exact ⟨by rw [hsubf, key, hlead, List.nil_append],
             by rw [hsubt, key]⟩
    · have hcf : isDig c = false := by
        cases hx : isDig c
        · rfl
        · exact absurd hx hc
      have hsubf : subNDR (c :: r) false = ' ' :: subNDR r true := by
        simp [subNDR, hcf]
      have hsubt : subNDR (c :: r) true = subNDR r true := by
        simp [subNDR, hcf]
      have hdg : digitGroups (c :: r) = digitGroups r :=
        digitGroups_cons_nondigit r hcf
      have hlead : leadSp (c :: r) = [' '] := by simp [leadSp, hcf]
      have htr : trailSp (c :: r) = trailSp r := by
        cases r with
        | nil =>
          unfold trailSp
          simp [lastNonDigit, digitGroups, hcf]
        | cons d r' => exact trailSp_cons_nondigit _ hcf (by simp)
      refine ⟨?_, ?_⟩
      · rw [hsubf, ihB, hdg, hlead, htr]
        rfl
      · rw [hsubt, ihB, hdg, htr]

theorem dropWhile_append_all {p : Char → Bool} (pre x : Str)
    (h : ∀ c ∈ pre, p c = true) :
    (pre ++ x).dropWhile p = x.dropWhile p := by
  induction pre with
  | nil => rfl
  | cons c pre' ih =>
    rw [List.cons_append, List.dropWhile_cons_of_pos (h c (by simp))]
    exact ih fun c hc => h c (by simp [hc])

theorem pyStrip_all_ws (s : Str) (h : ∀ c ∈ s, isWS c = true) :
    pyStrip s = [] := by
  unfold pyStrip
  have h1 : s.dropWhile isWS = [] := by
    rw [List.dropWhile_eq_nil_iff]
    intro x hx
    exact h x hx
  rw [h1]
  rfl

/-- Stripping whitespace from `pre ++ mid ++ post` with all-whitespace
`pre`/`post` and non-whitespace boundaries on `mid` yields `mid`. -/
theorem pyStrip_sandwich (pre mid post : Str)
    (hpre : ∀ c ∈ pre, isWS c = true) (hpost : ∀ c ∈ post, isWS c = true)
    (hhead : ∀ c, mid.head? = some c → isWS c = false)
    (hlast : ∀ c, mid.getLast? = some c → isWS c = false) :
    pyStrip (pre ++ (mid ++ post)) = mid := by
  cases hmid : mid with
  | nil =>
    subst hmid
    apply pyStrip_all_ws
    intro c hc
    simp only [List.nil_append, List.mem_append] at hc
    rcases hc with hc | hc
    · exact hpre c hc
    · exact hpost c hc
  | cons m mid' =>
    subst hmid
    have hm : isWS m = false := hhead m rfl
    unfold pyStrip
    have s1 : (pre ++ ((m :: mid') ++ post)).dropWhile isWS
        = m :: (mid' ++ post) := by
      rw [dropWhile_append_all pre _ hpre, List.cons_append,
        List.dropWhile_cons_of_neg (by simp [hm])]
    rw [s1]
    have s2 : (m :: (mid' ++ post)).reverse
        = post.reverse ++ (m :: mid').reverse := by
      rw [List.reverse_cons, List.reverse_append, List.reverse_cons,
        List.append_assoc]
    rw [s2, dropWhile_append_all post.reverse _
      (fun c hc => hpost c (List.mem_reverse.1 hc))]
    have s3 : ((m :: mid').reverse).dropWhile isWS = (m :: mid').reverse := by
      rcases hrev : (m :: mid').reverse with _ | ⟨c0, rest0⟩
      · rfl
      · have hc0 : (m :: mid').getLast? = some c0 := by
          rw [← List.head?_reverse, hrev]
          rfl
        rw [List.dropWhile_cons_of_neg (by simp [hlast c0 hc0])]
    rw [s3, List.reverse_reverse]

theorem joinSep_head_digit (gs : List Str)
    (hg : ∀ g ∈ gs, g ≠ [] ∧ ∀ x ∈ g, isDig x = true) :
    ∀ c, (joinSep ' ' gs).head? = some c → isDig c = true := by
  cases gs with
  | nil => intro c hc; simp [joinSep] at hc
  | cons g gs' =>
    obtain ⟨hne, hdig⟩ := hg g (by simp)
    obtain ⟨x, g'', rfl⟩ := List.exists_cons_of_ne_nil hne
    intro c hc
    cases gs' with
    | nil =>
      have hj : joinSep ' ' [x :: g''] = x :: g'' := rfl
      rw [hj, List.head?_cons] at hc
      injection hc with hc
      rw [← hc]
      exact hdig x (by simp)
    | cons h t =>
      have hj : joinSep ' ' ((x :: g'') :: h :: t)
          = x :: (g'' ++ ' ' :: joinSep ' ' (h :: t)) := rfl
      rw [hj, List.head?_cons] at hc
      injection hc with hc
      rw [← hc]
      exact hdig x (by simp)

theorem joinSep_ne_nil (g : Str) (gs : List Str) (hne : g ≠ []) :
    joinSep ' ' (g :: gs) ≠ [] := by
  cases gs with
  | nil => simpa [joinSep] using hne
  | cons h t =>
    have hj : joinSep ' ' (g :: h :: t) = g ++ ' ' :: joinSep ' ' (h :: t) := rfl
    rw [hj]
    simp

theorem joinSep_last_digit (gs : List Str)
    (hg : ∀ g ∈ gs, g ≠ [] ∧ ∀ x ∈ g, isDig x = true) :
    ∀ c, (joinSep ' ' gs).getLast? = some c → isDig c = true := by
  induction gs with
  | nil => intro c hc; simp [joinSep] at hc
  | cons g gs' ih =>
    intro c hc
    cases gs' with
    | nil =>
      have hj : joinSep ' ' [g] = g := rfl
      rw [hj] at hc
      exact (hg g (by simp)).2 c (List.mem_of_getLast?_eq_some hc)
    | cons h t =>
      have hj : joinSep ' ' (g :: h :: t) = g ++ ' ' :: joinSep ' ' (h :: t) := rfl
      rw [hj, List.getLast?_append] at hc
      have hne2 : joinSep ' ' (h :: t) ≠ [] := joinSep_ne_nil h t (hg h (by simp)).1
      have hl : (' ' :: joinSep ' ' (h :: t)).getLast?
          = (joinSep ' ' (h :: t)).getLast? := by
        obtain ⟨j0, js0, hjs⟩ := List.exists_cons_of_ne_nil hne2
        rw [hjs, List.getLast?_cons_cons]
      rw [hl] at hc
      rcases hx : (joinSep ' ' (h :: t)).getLast? with _ | x
      · rw [List.getLast?_eq_none_iff] at hx
        exact absurd hx hne2
      · rw [hx] at hc
        simp only [Option.or] at hc
        injection hc with hc
        subst hc
        exact ih (fun g' hg' => hg g' (by simp [hg'])) x hx

theorem map_dot_of_digits (g : Str) (h : ∀ x ∈ g, isDig x = true) :
    g.map (fun c => if c = ' ' then '.' else c) = g := by
  induction g with
  | nil => rfl
  | cons x g' ih =>
    have hx := h x (by simp)
    have hxs : x ≠ ' ' := by
      intro he
      subst he
      exact absurd hx (by decide)
    rw [List.map_cons, if_neg hxs, ih fun y hy => h y (by simp [hy])]

theorem map_dot_joinSep (gs : List Str)
    (hg : ∀ g ∈ gs, g ≠ [] ∧ ∀ x ∈ g, isDig x = true) :
    (joinSep ' ' gs).map (fun c => if c = ' ' then '.' else c)
      = joinSep '.' gs := by
  induction gs with
  | nil => rfl
  | cons g gs' ih =>
    cases gs' with
    | nil =>
      have h1 : joinSep ' ' [g] = g := rfl
      have h2 : joinSep '.' [g] = g := rfl
      rw [h1, h2]
      exact map_dot_of_digits g (hg g (by simp)).2
    | cons h t =>
      have h1 : joinSep ' ' (g :: h :: t) = g ++ ' ' :: joinSep ' ' (h :: t) := rfl
      have h2 : joinSep '.' (g :: h :: t) = g ++ '.' :: joinSep '.' (h :: t) := rfl
      rw [h1, h2, List.map_append, List.map_cons,
        map_dot_of_digits g (hg g (by simp)).2, if_pos rfl,
        ih fun g' hg' => hg g' (by simp [hg'])]

/-- C5: the `commits_version` key normalization replaces each maximal
run of non-digit characters by a single `'.'` and drops leading and
trailing non-digit runs — equivalently, it joins the maximal digit runs
of the tag with single dots; in particular `v0.3.0` normalizes to
`0.3.0` and `release-0-0-1` to `0.0.1`. -/
theorem gitchart_C5 :
    (∀ tag : Str, normalizeTag tag = joinSep '.' (digitGroups tag)) ∧
    normalizeTag ("v0.3.0".data) = "0.3.0".data ∧
    normalizeTag ("release-0-0-1".data) = "0.0.1".data := by
  refine ⟨?_, by decide, by decide⟩
  intro tag
  have hd := subNDR_decomp tag
  rw [normalizeTag, hd.1]
  have hg : ∀ g ∈ digitGroups tag, g ≠ [] ∧ ∀ x ∈ g, isDig x = true :=
    fun g hgm => digitGroups_mem tag g hgm
  have hpre : ∀ c ∈ leadSp tag, isWS c = true := by
    cases tag with
    | nil =>
      intro x hx
      simp [leadSp] at hx
    | cons c r =>
      intro x hx
      by_cases hcd : isDig c = true
      · simp [leadSp, hcd] at hx
      · simp [leadSp, hcd] at hx
        subst hx
        decide
  have hpost : ∀ c ∈ trailSp tag, isWS c = true := by
    intro x hx
    unfold trailSp at hx
    split at hx
    · simp at hx
      subst hx
      decide
    · simp at hx
  rw [pyStrip_sandwich _ _ _ hpre hpost
    (fun c hc => isWS_of_isDig (joinSep_head_digit _ hg c hc))
    (fun c hc => isWS_of_isDig (joinSep_last_digit _ hg c hc))]
  exact map_dot_joinSep _ hg

/-! ### Claim C1: commits by year/month with gap filling -/

/-- The `year, month = line.split('-')[0:2]; int(year)*100 + int(month)`
encoding of a date line (`none` models the raised exception on a
malformed line). -/
def encOf (l : Str) : Option Nat :=
  match pySplitOnChar '-' l with
  | y :: m :: _ =>
    match pyIntNat y, pyIntNat m with
    | some yv, some mv => some (yv * 100 + mv)
    | _, _ => none
  | _ => none

/-- The dictionary key `'{0}-{1}'.format(year, month)` built from the raw
split substrings. -/
def ymKeyStrOf (l : Str) : Str :=
  match pySplitOnChar '-' l with
  | y :: m :: _ => y ++ '-' :: m
  | _ => []

/-- One iteration of the first loop of `_chart_commits_year_month`:
update `min_date`, `max_date` and the table. -/
def ymStep (st : Nat × Nat × Table) (l : Str) : Option (Nat × Nat × Table) :=
  match pySplitOnChar '-' l with
  | y :: m :: _ =>
    match pyIntNat y, pyIntNat m with
    | some yv, some mv =>
      some (min st.1 (yv * 100 + mv), max st.2.1 (yv * 100 + mv),
        dincr st.2.2 (y ++ '-' :: m))
    | _, _ => none
  | _ => none

/-- The first loop of `_chart_commits_year_month`, with the initial
values `min_date = 999999`, `max_date = 0`. -/
def ymScan (lines : List Str) : Option (Nat × Nat × Table) :=
  lines.foldlM ymStep (999999, 0, ([] : Table))

/-- The gap-fill key `'{0:04d}-{1:02d}'.format(date // 100, date % 100)`. -/
def ymKey (d : Nat) : Str := padZero 4 (d / 100) ++ '-' :: padZero 2 (d % 100)

/-- The date increment of the gap-fill loop: `+89` after December,
`+1` otherwise. -/
def ymNext (d : Nat) : Nat := if d % 100 = 12 then d + 89 else d + 1

/-- The gap-fill loop `while date < max_date: commits[ym] =
commits.get(ym, 0); date += ...`. -/
def fillLoop (maxD : Nat) (date : Nat) (t : Table) : Table :=
  if date < maxD then
    fillLoop maxD (ymNext date) (dsetd t (ymKey date))
  else t
termination_by maxD - date
decreasing_by
  unfold ymNext
  split <;> omega

/-- The table built by `_chart_commits_year_month` (scan, then gap fill
when at least one date was seen). -/
def chartYearMonth (lines : List Str) : Option Table :=
  (ymScan lines).map fun st =>
    if st.1 ≠ 999999 then fillLoop st.2.1 st.1 st.2.2 else st.2.2

/-- A well-formed `--date=short` git log line: zero-padded 4-digit year,
dash, zero-padded 2-digit month in 1..12, dash, remainder. -/
def WFDate (l : Str) : Prop :=
  ∃ y m rest, y ≤ 9999 ∧ 1 ≤ m ∧ m ≤ 12 ∧
    l = padZero 4 y ++ '-' :: (padZero 2 m ++ '-' :: rest)

theorem no_dash_of_dig {c : Char} (h : isDig c = true) :
    (decide (c = '-') : Bool) = false := by
  cases hd : decide (c = '-')
  · rfl
  · rw [decide_eq_true_eq] at hd
    subst hd
    exact absurd h (by decide)

theorem split_WF (y m : Nat) (rest : Str) :
    pySplitOnChar '-' (padZero 4 y ++ '-' :: (padZero 2 m ++ '-' :: rest))
      = padZero 4 y :: padZero 2 m :: pySplitOnChar '-' rest := by
  unfold pySplitOnChar
  rw [pySplitP_append_sep _ _
      (fun c hc => no_dash_of_dig (padZero_all_dig 4 y c hc)) (by simp),
    pySplitP_append_sep _ _
      (fun c hc => no_dash_of_dig (padZero_all_dig 2 m c hc)) (by simp)]

theorem natToDigits_len4 {n : Nat} (h : n ≤ 9999) : (natToDigits n).length ≤ 4 :=
  natToDigits_length_le (by omega) (by
    have h4 : (10 : Nat) ^ 4 = 10000 := by norm_num
    omega)

theorem natToDigits_len2 {n : Nat} (h : n ≤ 99) : (natToDigits n).length ≤ 2 :=
  natToDigits_length_le (by omega) (by
    have h2 : (10 : Nat) ^ 2 = 100 := by norm_num
    omega)

/-- The key of a well-formed line equals the canonical key of its
encoding, and the encoding parses as expected. -/
theorem encOf_WF {l : Str} {y m : Nat} (rest : Str)
    (hy : y ≤ 9999) (hm1 : 1 ≤ m) (hm2 : m ≤ 12)
    (hl : l = padZero 4 y ++ '-' :: (padZero 2 m ++ '-' :: rest)) :
    encOf l = some (y * 100 + m) ∧ ymKeyStrOf l = ymKey (y * 100 + m) := by
  subst hl
  have hsplit := split_WF y m rest
  constructor
  · rw [encOf, hsplit]
    simp only [pyIntNat_padZero]
  · rw [ymKeyStrOf, hsplit, ymKey]
    have hdiv : (y * 100 + m) / 100 = y := by omega
    have hmod : (y * 100 + m) % 100 = m := by omega
    rw [hdiv, hmod]

theorem ymKey_inj {d e : Nat} (hd : d ≤ 999999) (he : e ≤ 999999)
    (h : ymKey d = ymKey e) : d = e := by
  have l4d : (padZero 4 (d / 100)).length = 4 :=
    padZero_length (natToDigits_len4 (by omega))
  have l4e : (padZero 4 (e / 100)).length = 4 :=
    padZero_length (natToDigits_len4 (by omega))
  unfold ymKey at h
  obtain ⟨h1, h2⟩ := List.append_inj h (by rw [l4d, l4e])
  injection h2 with h2a h2b
  have e1 : d / 100 = e / 100 := by
    have := congrArg parseDigits h1
    rwa [parseDigits_padZero, parseDigits_padZero] at this
  have e2 : d % 100 = e % 100 := by
    have := congrArg parseDigits h2b
    rwa [parseDigits_padZero, parseDigits_padZero] at this
  omega

/-- The default-0 reading of `encOf`. -/
def encD (l : Str) : Nat := (encOf l).getD 0

/-- The first loop of `_chart_commits_year_month` over well-formed
lines: a fold of `min`, a fold of `max`, and a counting fold. -/
theorem ymScan_eq (lines : List Str) :
    ∀ st : Nat × Nat × Table, (∀ l ∈ lines, WFDate l) →
      lines.foldlM ymStep st =
        some (lines.foldl (fun a l => min a (encD l)) st.1,
              lines.foldl (fun a l => max a (encD l)) st.2.1,
              lines.foldl (fun t l => dincr t (ymKeyStrOf l)) st.2.2) := by
  induction lines with
  | nil => intro st h; rfl
  | cons l₀ rest ih =>
    intro st h
    obtain ⟨y, m, r0, hy, hm1, hm2, hl⟩ := h l₀ (by simp)
    obtain ⟨henc, hkey⟩ := encOf_WF r0 hy hm1 hm2 hl
    have hstep : ymStep st l₀ =
        some (min st.1 (encD l₀), max st.2.1 (encD l₀),
          dincr st.2.2 (ymKeyStrOf l₀)) := by
      subst hl
      rw [ymStep, split_WF]
      simp only [pyIntNat_padZero]
      have : encD (padZero 4 y ++ '-' :: (padZero 2 m ++ '-' :: r0))
          = y * 100 + m := by
        rw [encD, henc]
        rfl
      rw [this, ymKeyStrOf, split_WF]
    rw [List.foldlM_cons, hstep]
    simp only [Option.bind_eq_bind, Option.some_bind]
    rw [ih _ (fun l hl₂ => h l (by simp [hl₂]))]
    rfl

theorem fillLoop_eq (maxD date : Nat) (t : Table) :
    fillLoop maxD date t =
      if date < maxD then fillLoop maxD (ymNext date) (dsetd t (ymKey date))
      else t := by
  rw [fillLoop]

theorem ymNext_gt (d : Nat) : d < ymNext d := by
  unfold ymNext
  split <;> omega

theorem ymNext_valid {d : Nat} (h1 : 1 ≤ d % 100) (h2 : d % 100 ≤ 12) :
    1 ≤ ymNext d % 100 ∧ ymNext d % 100 ≤ 12 := by
  unfold ymNext
  split <;> omega

theorem ymNext_le {d e : Nat} (hd2 : d % 100 ≤ 12)
    (he1 : 1 ≤ e % 100) (he2 : e % 100 ≤ 12) (hlt : d < e) : ymNext d ≤ e := by
  unfold ymNext
  split <;> omega

theorem fillLoop_preserve_aux (maxD : Nat) :
    ∀ (fuel d : Nat), maxD - d ≤ fuel → ∀ (t : Table) (k : Str) (v : Nat),
      dget t k = some v → dget (fillLoop maxD d t) k = some v := by
  intro fuel
  induction fuel with
  | zero =>
    intro d hle t k v h
    rw [fillLoop_eq, if_neg (by omega)]
    exact h
  | succ f ih =>
    intro d hle t k v h
    by_cases hlt : d < maxD
    · rw [fillLoop_eq, if_pos hlt]
      have hnext := ymNext_gt d
      exact ih (ymNext d) (by omega) _ k v (dget_dsetd_preserve t (ymKey d) h)
    · rw [fillLoop_eq, if_neg hlt]
      exact h

theorem fillLoop_preserve (maxD d : Nat) (t : Table) (k : Str) (v : Nat)
    (h : dget t k = some v) : dget (fillLoop maxD d t) k = some v :=
  fillLoop_preserve_aux maxD (maxD - d) d le_rfl t k v h

/-- Every valid year-month encoding between the loop's starting date and
`max_date` (exclusive) ends up in the table, bound to its pre-loop value
(or `0` when absent). -/
theorem fillLoop_reach (maxD e : Nat) (hmx : maxD ≤ 999912)
    (he1 : 1 ≤ e % 100) (he2 : e % 100 ≤ 12) (helt : e < maxD) :
    ∀ (fuel d : Nat), e - d ≤ fuel →
      1 ≤ d % 100 → d % 100 ≤ 12 → d ≤ e → ∀ t : Table,
      dget (fillLoop maxD d t) (ymKey e) = some (dgetD t (ymKey e) 0) := by
  intro fuel
  induction fuel with
  | zero =>
    intro d hfe hd1 hd2 hde t
    have hde' : d = e := by omega
    subst hde'
    rw [fillLoop_eq, if_pos (by omega)]
    exact fillLoop_preserve maxD (ymNext d) _ _ _ (dget_dsetd_self t (ymKey d))
  | succ f ih =>
    intro d hfe hd1 hd2 hde t
    by_cases hdeq : d = e
    · subst hdeq
      rw [fillLoop_eq, if_pos (by omega)]
      exact fillLoop_preserve maxD (ymNext d) _ _ _ (dget_dsetd_self t (ymKey d))
    · have hlt : d < e := by omega
      rw [fillLoop_eq, if_pos (by omega)]
      have hnext := ymNext_le hd2 he1 he2 hlt
      have hv := ymNext_valid hd1 hd2
      have hgt := ymNext_gt d
      have hne : ymKey e ≠ ymKey d := by
        intro hk
        have := ymKey_inj (by omega) (by omega) hk
        omega
      have hsame : dgetD (dsetd t (ymKey d)) (ymKey e) 0 = dgetD t (ymKey e) 0 := by
        unfold dgetD dsetd
        rw [dget_dset_ne t _ hne]
      rw [← hsame]
      exact ih (ymNext d) (by omega) hv.1 hv.2 hnext _

theorem count_map_eq_countP (f : Str → Str) (lines : List Str) (k : Str) :
    (lines.map f).count k = lines.countP (fun l => decide (f l = k)) := by
  induction lines with
  | nil => rfl
  | cons a r ih =>
    rw [List.map_cons, List.count_cons, List.countP_cons, ih]
    congr 1
    by_cases hfa : f a = k
    · simp [hfa]
    · simp [hfa]

/-- C1: for every non-empty list of well-formed date lines, the
`commits_year_month` table holds a key for every calendar month between
the minimum and maximum observed year-month encoding (inclusive), bound
to the number of lines observed in that month — `0` for gap months,
the observed count for observed months. -/
theorem gitchart_C1 (lines : List Str) (hne : lines ≠ [])
    (hwf : ∀ l ∈ lines, WFDate l) :
    ∃ mn mx t₁ t, ymScan lines = some (mn, mx, t₁) ∧
      chartYearMonth lines = some t ∧
      (∀ l ∈ lines, ∃ e, encOf l = some e ∧ mn ≤ e ∧ e ≤ mx ∧
        1 ≤ e % 100 ∧ e % 100 ≤ 12) ∧
      (∀ e, mn ≤ e → e ≤ mx → 1 ≤ e % 100 → e % 100 ≤ 12 →
        dget t (ymKey e) =
          some (lines.countP fun l => decide (encOf l = some e))) := by
  have hlineE : ∀ l ∈ lines, encOf l = some (encD l) ∧ 1 ≤ encD l % 100 ∧
      encD l % 100 ≤ 12 ∧ encD l ≤ 999912 ∧ ymKeyStrOf l = ymKey (encD l) := by
    intro l hl
    obtain ⟨y, m, r0, hy, hm1, hm2, hlf⟩ := hwf l hl
    obtain ⟨henc, hkey⟩ := encOf_WF r0 hy hm1 hm2 hlf
    have hE : encD l = y * 100 + m := by
      rw [encD, henc]
      rfl
    refine ⟨by rw [henc, hE], ?_, ?_, ?_, by rw [hkey, hE]⟩
    · rw [hE]; omega
    · rw [hE]; omega
    · rw [hE]; omega
  have hscan : ymScan lines = some ((lines.map encD).foldl min 999999,
      (lines.map encD).foldl max 0, (lines.map ymKeyStrOf).foldl dincr []) := by
    have h0 := ymScan_eq lines (999999, 0, ([] : Table)) hwf
    rw [List.foldl_map, List.foldl_map, List.foldl_map]
    exact h0
  obtain ⟨l₀, hl₀⟩ : ∃ l, l ∈ lines := by
    rcases lines with _ | ⟨a, r⟩
    · exact absurd rfl hne
    · exact ⟨a, by simp⟩
  have hmn_le : ∀ l ∈ lines, (lines.map encD).foldl min 999999 ≤ encD l :=
    fun l hl => foldl_min_le_mem _ _ _ (List.mem_map_of_mem encD hl)
  have hmx_ge : ∀ l ∈ lines, encD l ≤ (lines.map encD).foldl max 0 :=
    fun l hl => foldl_max_mem_le _ _ _ (List.mem_map_of_mem encD hl)
  have hmnB : (lines.map encD).foldl min 999999 ≤ 999912 :=
    le_trans (hmn_le l₀ hl₀) (hlineE l₀ hl₀).2.2.2.1
  have hmn_mem : (lines.map encD).foldl min 999999 ∈ lines.map encD := by
    rcases foldl_min_mem (lines.map encD) 999999 with hc | hc
    · omega
    · exact hc
  obtain ⟨lm, hlm, hlmE⟩ := List.mem_map.1 hmn_mem
  have hmn1 : 1 ≤ ((lines.map encD).foldl min 999999) % 100 := by
    rw [← hlmE]
    exact (hlineE lm hlm).2.1
  have hmn2 : ((lines.map encD).foldl min 999999) % 100 ≤ 12 := by
    rw [← hlmE]
    exact (hlineE lm hlm).2.2.1
  have hmx_mem : (lines.map encD).foldl max 0 ∈ lines.map encD := by
    rcases foldl_max_mem (lines.map encD) 0 with hc | hc
    · exfalso
      have h1 := hmx_ge l₀ hl₀
      have h2 := (hlineE l₀ hl₀).2.1
      omega
    · exact hc
  obtain ⟨lx, hlx, hlxE⟩ := List.mem_map.1 hmx_mem
  have hmxB : (lines.map encD).foldl max 0 ≤ 999912 := by
    rw [← hlxE]
    exact (hlineE lx hlx).2.2.2.1
  have hchart : chartYearMonth lines =
      some (fillLoop ((lines.map encD).foldl max 0)
        ((lines.map encD).foldl min 999999)
        ((lines.map ymKeyStrOf).foldl dincr [])) := by
    unfold chartYearMonth
    rw [hscan, Option.map_some']
    rw [if_pos (by omega : ¬ (lines.map encD).foldl min 999999 = 999999)]
  have hcountEq : ∀ e, e ≤ 999912 → 1 ≤ e % 100 → e % 100 ≤ 12 →
      (lines.map ymKeyStrOf).count (ymKey e)
        = lines.countP (fun l => decide (encOf l = some e)) := by
    intro e heb he1 he2
    rw [count_map_eq_countP]
    apply List.countP_congr
    intro l hl
    simp only [decide_eq_true_eq]
    obtain ⟨hE, hv1, hv2, hvB, hK⟩ := hlineE l hl
    constructor
    · intro hk
      rw [hK] at hk
      have := ymKey_inj (by omega) (by omega) hk
      rw [hE, this]
    · intro hk
      rw [hE] at hk
      injection hk with hk
      rw [hK, hk]
  have hval : ∀ e, e ≤ 999912 → 1 ≤ e % 100 → e % 100 ≤ 12 →
      dget ((lines.map ymKeyStrOf).foldl dincr []) (ymKey e) =
        (if lines.countP (fun l => decide (encOf l = some e)) = 0 then none
         else some (lines.countP (fun l => decide (encOf l = some e)))) := by
    intro e heb he1 he2
    rw [dget_foldl_dincr, hcountEq e heb he1 he2]
    by_cases h0 : lines.countP (fun l => decide (encOf l = some e)) = 0
    · rw [if_pos h0, if_pos h0]
      rfl
    · rw [if_neg h0, if_neg h0]
      have hz : dgetD ([] : Table) (ymKey e) 0 = 0 := rfl
      rw [hz, Nat.zero_add]
  refine ⟨_, _, _, _, hscan, hchart, ?_, ?_⟩
  · intro l hl
    exact ⟨encD l, (hlineE l hl).1, hmn_le l hl, hmx_ge l hl,
      (hlineE l hl).2.1, (hlineE l hl).2.2.1⟩
  · intro e hemn hemx he1 he2
    have heb : e ≤ 999912 := le_trans hemx hmxB
    by_cases hex : e = (lines.map encD).foldl max 0
    · have hpos : 0 < lines.countP (fun l => decide (encOf l = some e)) := by
        rw [List.countP_pos_iff]
        refine ⟨lx, hlx, ?_⟩
        rw [(hlineE lx hlx).1, hlxE, ← hex]
        simp
      have ht₁v : dget ((lines.map ymKeyStrOf).foldl dincr []) (ymKey e)
          = some (lines.countP fun l => decide (encOf l = some e)) := by
        rw [hval e heb he1 he2, if_neg (by omega)]
      exact fillLoop_preserve _ _ _ _ _ ht₁v
    · have hlt : e < (lines.map encD).foldl max 0 := by omega
      rw [fillLoop_reach _ e hmxB he1 he2 hlt
        (e - (lines.map encD).foldl min 999999) _ le_rfl hmn1 hmn2 hemn _]
      congr 1
      rw [dgetD, hval e heb he1 he2]
      by_cases h0 : lines.countP (fun l => decide (encOf l = some e)) = 0
      · rw [if_pos h0, h0]
        rfl
      · rw [if_neg h0]
        rfl

/-- C1 witness: two commits in 2013-03 and 2013-05; the gap month
2013-04 appears with count 0 and the observed months keep their
counts. -/
theorem gitchart_C1_witness :
    ∃ t, chartYearMonth ["2013-03-15".data, "2013-05-02".data] = some t ∧
      dget t ("2013-03".data) = some 1 ∧
      dget t ("2013-04".data) = some 0 ∧
      dget t ("2013-05".data) = some 1 := by
  obtain ⟨mn, mx, t₁, t, hscan, hchart, hobs, hall⟩ := gitchart_C1
    ["2013-03-15".data, "2013-05-02".data] (by decide) (by
      intro l hl
      simp only [List.mem_cons, List.not_mem_nil, or_false] at hl
      rcases hl with rfl | rfl
      · exact ⟨2013, 3, "15".data, by omega, by omega, by omega, by decide⟩
      · exact ⟨2013, 5, "02".data, by omega, by omega, by omega, by decide⟩)
  have hconc : ymScan ["2013-03-15".data, "2013-05-02".data]
      = some (201303, 201305, [("2013-03".data, 1), ("2013-05".data, 1)]) := by
    decide
  rw [hscan] at hconc
  injection hconc with hconc
  rw [Prod.mk.injEq, Prod.mk.injEq] at hconc
  obtain ⟨hmn, hmx, ht₁⟩ := hconc
  subst hmn
  subst hmx
  refine ⟨t, hchart, ?_, ?_, ?_⟩
  · have h3 := hall 201303 (by omega) (by omega) (by omega) (by omega)
    rw [show ymKey 201303 = "2013-03".data from by decide] at h3
    exact h3.trans (by decide)
  · have h4 := hall 201304 (by omega) (by omega) (by omega) (by omega)
    rw [show ymKey 201304 = "2013-04".data from by decide] at h4
    exact h4.trans (by decide)
  · have h5 := hall 201305 (by omega) (by omega) (by omega) (by omega)
    rw [show ymKey 201305 = "2013-05".data from by decide] at h5
    exact h5.trans (by decide)
